import Mathlib

/-!
# ReviewPilot: `static/js/main.js`

A shallow embedding of the client-side script of the Review Automation
Platform.  Every handler of the script is a function on an explicit record of
the DOM properties it reads and writes.

Conventions of the embedding.

* A JavaScript string is the list of its characters (`JsString`).  Strings
  are taken to be well formed; a character outside the Basic Multilingual
  Plane is one element here and two code units in JavaScript, which no test
  of the script tells apart.
* `element.classList` is the ordered token set of the DOM standard: a list of
  tokens, `add` appends a token that is absent, `remove` deletes it.
* `element.textContent`, `style.color`, `style.display` and `input.value` are
  string-valued properties; assignment stores the string.
* `element.innerHTML` is not a stored string: the getter serializes the
  children of the element and the setter replaces them by what the assigned
  markup parses to.  `showLoading` takes both as the interface `InnerHTML` of
  the runtime.  The submit guard keeps the label of its button as the markup
  `innerHTML` holds.
* Timers (`setTimeout`, `setInterval`) are entries of a pending list with an
  integer due time in milliseconds; a timer runs at its due time.
* A regular expression literal is a syntax tree, and `test` is a matcher by
  derivatives, proved below to decide the strings the tree denotes.
* Numbers are IEEE 754 doubles where the script computes with fractions (the
  counter animation): each operation is the exact result rounded to 53
  significant bits.  Star ratings are small integers and are kept as such.
-/

namespace ReviewPilot

/-- A JavaScript string. -/
abbrev JsString := List Char

/-! ## `DOMTokenList` -/

/-- The method `classList.add(token)`: the token set is ordered and holds a
token at most once. -/
def classListAdd (cl : List String) (token : String) : List String :=
  if token ∈ cl then cl else cl ++ [token]

/-- The method `classList.remove(token)`. -/
def classListRemove (cl : List String) (token : String) : List String :=
  cl.filter (fun t => t != token)

/-! ## Number conversions of the runtime -/

/-- The decimal digit character of a digit value. -/
def digitChar : Nat → Char
  | 0 => '0'
  | 1 => '1'
  | 2 => '2'
  | 3 => '3'
  | 4 => '4'
  | 5 => '5'
  | 6 => '6'
  | 7 => '7'
  | 8 => '8'
  | _ => '9'

/-- Decimal digits of `n`, most significant first, pushed in front of `acc`. -/
def toDigits10 : Nat → Nat → List Char → List Char
  | 0, _, acc => acc
  | fuel + 1, n, acc =>
    if n < 10 then digitChar n :: acc
    else toDigits10 fuel (n / 10) (digitChar (n % 10) :: acc)

/-- The conversion `ToString(n)` of a non-negative integer Number (below
`10^21`, where JavaScript switches to exponent form): its decimal numeral.
It is what `input.value = rating` stores. -/
def numberToString (n : Nat) : JsString :=
  toDigits10 (n + 1) n []

/-- The characters matched by `\s` in a regular expression and skipped by
`parseInt`: WhiteSpace and LineTerminator of ECMAScript. -/
def isWhiteSpace (c : Char) : Bool :=
  c.toNat == 0x09 || c.toNat == 0x0A || c.toNat == 0x0B || c.toNat == 0x0C ||
  c.toNat == 0x0D || c.toNat == 0x20 || c.toNat == 0xA0 || c.toNat == 0x1680 ||
  (0x2000 ≤ c.toNat && c.toNat ≤ 0x200A) || c.toNat == 0x2028 ||
  c.toNat == 0x2029 || c.toNat == 0x202F || c.toNat == 0x205F ||
  c.toNat == 0x3000 || c.toNat == 0xFEFF

/-- The value of a character as a digit in the given radix, if it is one. -/
def digitValue (radix : Nat) (c : Char) : Option Nat :=
  let v :=
    if 48 ≤ c.toNat ∧ c.toNat ≤ 57 then c.toNat - 48
    else if 97 ≤ c.toNat ∧ c.toNat ≤ 122 then c.toNat - 87
    else if 65 ≤ c.toNat ∧ c.toNat ≤ 90 then c.toNat - 55
    else radix
  if v < radix then some v else none

/-- The global function `parseInt(string)` called with one argument: leading
white space is skipped, a sign is read, a `0x` or `0X` start selects radix 16,
and the longest run of digits is converted.  `none` is `NaN`.  The result is
the mathematical integer; the rounding of integers beyond `2^53` to a double
is not modelled. -/
def parseInt (s : JsString) : Option Int :=
  let s1 := s.dropWhile isWhiteSpace
  let sign : Int := if s1.head? = some '-' then -1 else 1
  let s2 := if s1.head? = some '-' ∨ s1.head? = some '+' then s1.tail else s1
  let hex : Bool := s2.take 2 == ['0', 'x'] || s2.take 2 == ['0', 'X']
  let radix : Nat := if hex then 16 else 10
  let s3 := if hex then s2.drop 2 else s2
  let z := s3.takeWhile (fun c => (digitValue radix c).isSome)
  if z = [] then none
  else some (sign * ((z.foldl (fun acc c => acc * radix + (digitValue radix c).getD 0) 0 : Nat) : Int))

/-! ## Rating stars (`initializeRatingStars`) -/

/-- A star icon of a rating container: its class list and its inline
`style.color`. -/
structure Star where
  classList : List String
  color : JsString
  deriving DecidableEq, Repr

/-- A `.rating-interactive` container: its `.fa-star` elements in document
order, the value of its hidden input (`none` when the container has no hidden
input) and the number of `change` events dispatched on that input so far. -/
structure RatingContainer where
  stars : List Star
  input : Option JsString
  changeEvents : Nat
  deriving DecidableEq, Repr

/-- The class update shared by the click and the mouseleave handler: the star
at position `i` is shown filled when `filled` holds. -/
def renderStar (filled : Bool) (s : Star) : Star :=
  if filled then
    { s with classList := classListAdd (classListRemove s.classList "text-muted") "text-warning" }
  else
    { s with classList := classListAdd (classListRemove s.classList "text-warning") "text-muted" }

/-- The click handler of the star at position `index`. -/
def click (index : Nat) (w : RatingContainer) : RatingContainer :=
  let rating := index + 1
  { stars := w.stars.mapIdx (fun i s => renderStar (decide (i < rating)) s)
    input := w.input.map (fun _ => numberToString rating)
    changeEvents := if w.input.isSome then w.changeEvents + 1 else w.changeEvents }

/-- The mouseenter handler of the star at position `index`. -/
def mouseenter (index : Nat) (w : RatingContainer) : RatingContainer :=
  let hoverRating := index + 1
  { w with stars := w.stars.mapIdx (fun i s =>
      if i < hoverRating then { s with color := "#ffc107".toList }
      else { s with color := [] }) }

/-- The committed rating read by the mouseleave handler:
`input ? parseInt(input.value) || 0 : 0`. -/
def currentRating (w : RatingContainer) : Int :=
  match w.input with
  | some v => (parseInt v).getD 0
  | none => 0

/-- The mouseleave handler of the container. -/
def mouseleave (w : RatingContainer) : RatingContainer :=
  { w with stars := w.stars.mapIdx (fun i s =>
      renderStar (decide ((i : Int) < currentRating w)) { s with color := [] }) }

/-- A star carries the filled style. -/
def Star.filled (s : Star) : Prop :=
  "text-warning" ∈ s.classList ∧ "text-muted" ∉ s.classList

/-- A star carries the unfilled style. -/
def Star.unfilled (s : Star) : Prop :=
  "text-muted" ∈ s.classList ∧ "text-warning" ∉ s.classList

instance (s : Star) : Decidable s.filled := by unfold Star.filled; infer_instance
instance (s : Star) : Decidable s.unfilled := by unfold Star.unfilled; infer_instance

/-! ## Table search (`initializeDataTables`) -/

/-- A body row of the bound table: its `textContent` and its inline
`style.display`. -/
structure Row where
  textContent : JsString
  display : JsString
  deriving DecidableEq, Repr

/-- The string `search` occurs in `text` at position 0. -/
def startsWith : JsString → JsString → Bool
  | _, [] => true
  | [], _ :: _ => false
  | c :: cs, d :: ds => c == d && startsWith cs ds

/-- The method `text.includes(search)`: `search` occurs in `text` at some
position. -/
def includes : JsString → JsString → Bool
  | [], search => startsWith [] search
  | c :: cs, search => startsWith (c :: cs) search || includes cs search

/-- The keyup handler of a `.table-search` input whose value is `value`, run
on the rows `tbody tr` of its table.  `toLowerCase` is the string method of
the runtime. -/
def keyup (toLowerCase : JsString → JsString) (value : JsString) (rows : List Row) : List Row :=
  let searchTerm := toLowerCase value
  rows.map (fun row =>
    let text := toLowerCase row.textContent
    if includes text searchTerm then { row with display := [] }
    else { row with display := "none".toList })

/-- A row is visible: its inline display is not `none`. -/
def Row.visible (r : Row) : Prop := r.display ≠ "none".toList

instance (r : Row) : Decidable r.visible := by unfold Row.visible; infer_instance

/-! ## Regular expressions -/

/-- The regular expressions needed for the pattern of `validateEmail`:
character classes, concatenation, alternation and repetition.  A pattern
written between `^` and `$` (without the `m` flag) has to match the whole
input. -/
inductive Regex where
  | empty : Regex
  | eps : Regex
  | cls : (Char → Bool) → Regex
  | seq : Regex → Regex → Regex
  | alt : Regex → Regex → Regex
  | star : Regex → Regex

/-- The quantifier `+`. -/
def Regex.plus (r : Regex) : Regex := Regex.seq r (Regex.star r)

/-- The regular expression matches the empty string. -/
def Regex.nullable : Regex → Bool
  | Regex.empty => false
  | Regex.eps => true
  | Regex.cls _ => false
  | Regex.seq a b => a.nullable && b.nullable
  | Regex.alt a b => a.nullable || b.nullable
  | Regex.star _ => true

/-- The residual of a regular expression after reading one character. -/
def Regex.deriv : Regex → Char → Regex
  | Regex.empty, _ => Regex.empty
  | Regex.eps, _ => Regex.empty
  | Regex.cls p, c => if p c then Regex.eps else Regex.empty
  | Regex.seq a b, c =>
    if a.nullable then Regex.alt (Regex.seq (a.deriv c) b) (b.deriv c)
    else Regex.seq (a.deriv c) b
  | Regex.alt a b, c => Regex.alt (a.deriv c) (b.deriv c)
  | Regex.star a, c => Regex.seq (a.deriv c) (Regex.star a)

/-- The method `/^r$/.test(s)`: the whole of `s` matches `r`. -/
def Regex.test (r : Regex) (s : JsString) : Bool :=
  (s.foldl Regex.deriv r).nullable

/-- The class `[^\s@]`. -/
def notSpaceNotAt (c : Char) : Bool := !(isWhiteSpace c) && c != '@'

/-- The pattern `/^[^\s@]+@[^\s@]+\.[^\s@]+$/` of `validateEmail`. -/
def emailPattern : Regex :=
  Regex.seq (Regex.plus (Regex.cls notSpaceNotAt))
    (Regex.seq (Regex.cls (fun c => c == '@'))
      (Regex.seq (Regex.plus (Regex.cls notSpaceNotAt))
        (Regex.seq (Regex.cls (fun c => c == '.'))
          (Regex.plus (Regex.cls notSpaceNotAt)))))

/-! ## Email validation (`validateEmail`) -/

/-- An element under the parent of an email input: its class list and its
text. -/
structure Node where
  classList : List String
  textContent : JsString
  deriving DecidableEq, Repr

/-- An `input[type="email"]`: its value, its class list and, while it is
attached, the other elements under its parent node in document order, those
before the input and those after it (`none`: the input has no parent
node). -/
structure EmailField where
  value : JsString
  classList : List String
  parent : Option (List Node × List Node)
  deriving DecidableEq, Repr

/-- The selector `.email-feedback` matches a class list. -/
def isFeedback (cl : List String) : Bool := cl.contains "email-feedback"

/-- Where `parentNode.querySelector('.email-feedback')` finds its first
match. -/
inductive Hit where
  | before : Hit
  | self : Hit
  | after : Hit
  deriving DecidableEq, Repr

/-- The call `input.parentNode.querySelector('.email-feedback')`: the first
match in document order, `none` for `null`. -/
def queryFeedback (before : List Node) (inputClasses : List String) (after : List Node) :
    Option Hit :=
  if before.any (fun n => isFeedback n.classList) then some Hit.before
  else if isFeedback inputClasses then some Hit.self
  else if after.any (fun n => isFeedback n.classList) then some Hit.after
  else none

/-- The element created by `validateEmail` on failure. -/
def feedbackDiv : Node :=
  { classList := ["invalid-feedback", "email-feedback"]
    textContent := "Please enter a valid email address".toList }

/-- The function `validateEmail(input)`.  The result is `none` when the
call throws, which it does when the input has no parent node. -/
def validateEmail (input : EmailField) : Option EmailField :=
  match input.parent with
  | none => none
  | some (before, after) =>
    let email := input.value
    let isValid := emailPattern.test email
    let feedback := queryFeedback before input.classList after
    if email ≠ [] ∧ isValid = false then
      let marked := classListAdd input.classList "is-invalid"
      match feedback with
      | none => some { input with classList := marked, parent := some (before, after ++ [feedbackDiv]) }
      | some _ => some { input with classList := marked }
    else
      let cleared := classListRemove input.classList "is-invalid"
      match feedback with
      | none => some { input with classList := cleared }
      | some Hit.before =>
        some { input with
          classList := cleared
          parent := some (before.eraseP (fun n => isFeedback n.classList), after) }
      | some Hit.self => some { input with classList := cleared, parent := none }
      | some Hit.after =>
        some { input with
          classList := cleared
          parent := some (before, after.eraseP (fun n => isFeedback n.classList)) }

/-- The number of `.email-feedback` elements the parent of the input holds. -/
def feedbackCount (input : EmailField) : Nat :=
  match input.parent with
  | none => 0
  | some (before, after) =>
    before.countP (fun n => isFeedback n.classList) +
      (if isFeedback input.classList then 1 else 0) +
      after.countP (fun n => isFeedback n.classList)

/-- The input is marked invalid. -/
def EmailField.invalid (input : EmailField) : Prop := "is-invalid" ∈ input.classList

instance (input : EmailField) : Decidable input.invalid := by
  unfold EmailField.invalid; infer_instance

/-- A sequence of blur events: `validateEmail` is called on the input with
each of the values in turn. -/
def blurs : List JsString → EmailField → Option EmailField
  | [], input => some input
  | v :: vs, input =>
    match validateEmail { input with value := v } with
    | none => none
    | some next => blurs vs next

/-! ## Timers -/

/-- A pending timer of the event loop: the identifier `setTimeout` returned,
the time in milliseconds at which it is due, and what its callback closes
over. -/
structure Timer (τ : Type) where
  id : Nat
  due : Nat
  closure : τ
  deriving DecidableEq, Repr

/-- The pending timer that runs next: the one with the least due time, the
one set first among those with the same due time. -/
def earliest {τ : Type} : List (Timer τ) → Option (Timer τ)
  | [] => none
  | t :: ts =>
    match earliest ts with
    | none => some t
    | some u => if u.due < t.due then some u else some t

/-- The function `clearTimeout(id)`; `none` is `undefined`, which clears
nothing. -/
def clearTimeout {τ : Type} (id : Option Nat) (pending : List (Timer τ)) : List (Timer τ) :=
  match id with
  | none => pending
  | some k => pending.filter (fun t => t.id != k)

/-- A due time is within a limit; `none` is no limit. -/
def withinLimit (limit : Option Nat) (due : Nat) : Bool :=
  match limit with
  | none => true
  | some t => decide (due ≤ t)

/-! ## Loading state (`showLoading` and the submit guard) -/

/-- A submit control: the markup of its label, as `innerHTML` holds it, and
its `disabled` flag. -/
structure Element where
  innerHTML : JsString
  disabled : Bool
  deriving DecidableEq, Repr

/-- The spinner icon markup. -/
def spinner : JsString := "<i class=\"fas fa-spinner fa-spin me-2\"></i>".toList

/-- The property `innerHTML` of an element whose children have type `C`:
`get` is the getter, the serialization of the children as markup; `set` is
the setter, the children the assigned markup parses to in the context of the
element, which replace the ones it had.  Both belong to the runtime. -/
structure InnerHTML (C : Type) where
  get : C → JsString
  set : JsString → C

/-- An element as `showLoading` receives it: its children and its `disabled`
flag. -/
structure LoadingElement (C : Type) where
  children : C
  disabled : Bool
  deriving DecidableEq, Repr

/-- The function `showLoading(element, message = 'Loading...')`: the new
state of the element and the returned callback `hideLoading`, a function on
the state the element has when it is called. -/
def showLoading {C : Type} (dom : InnerHTML C) (element : LoadingElement C)
    (message : Option JsString) : LoadingElement C × (LoadingElement C → LoadingElement C) :=
  let message := message.getD "Loading...".toList
  let original := dom.get element.children
  ({ children := dom.set (spinner ++ message), disabled := true },
   fun later => { later with children := dom.set original, disabled := false })

/-- An `innerHTML` for the examples: children are identified with their
markup.  The DOM agrees with it on markup that is already in serialized form,
as the markup of the examples is. -/
def serializedMarkup : InnerHTML JsString :=
  { get := fun children => children, set := fun markup => markup }

/-- A form with the submit listener of `initializeFormEnhancements`: its
class list, its first submit control if it has one, the pending fallback
timers (each closes over `originalText`) and the next timer identifier. -/
structure GuardedForm where
  classList : List String
  submitBtn : Option Element
  timers : List (Timer JsString)
  nextId : Nat
  deriving DecidableEq, Repr

/-- The submit listener, run at time `now`. -/
def submit (now : Nat) (form : GuardedForm) : GuardedForm :=
  match form.submitBtn with
  | some submitBtn =>
    if !form.classList.contains "no-loading" then
      let originalText := submitBtn.innerHTML
      { form with
        submitBtn := some { innerHTML := spinner ++ "Please wait...".toList, disabled := true }
        timers := form.timers ++ [{ id := form.nextId, due := now + 10000, closure := originalText }]
        nextId := form.nextId + 1 }
    else form
  | none => form

/-- The fallback callback set by the submit listener. -/
def fallback (originalText : JsString) (form : GuardedForm) : GuardedForm :=
  { form with
    submitBtn := form.submitBtn.map (fun _ => { innerHTML := originalText, disabled := false }) }

/-- Runs the pending fallback timers that are due within the limit, in the
order of the event loop. -/
def GuardedForm.runTimers (limit : Option Nat) : Nat → GuardedForm → GuardedForm
  | 0, form => form
  | fuel + 1, form =>
    match earliest form.timers with
    | none => form
    | some t =>
      if withinLimit limit t.due then
        GuardedForm.runTimers limit fuel
          (fallback t.closure { form with timers := form.timers.filter (fun u => u.id != t.id) })
      else form

/-- Submit events at the given times, in order; the timers due by the time of
an event run before it. -/
def submits : List Nat → GuardedForm → GuardedForm
  | [], form => form
  | now :: rest, form =>
    submits rest (submit now (GuardedForm.runTimers (some now) form.timers.length form))

/-- The form once every scheduled fallback timer has fired. -/
def GuardedForm.settle (form : GuardedForm) : GuardedForm :=
  GuardedForm.runTimers none form.timers.length form

/-! ## `debounce` -/

/-- The state of one wrapper returned by `debounce(func, wait)`: the variable
`timeout`, the pending timers it has set (each callback `later` closes over
the arguments of its call), the next timer identifier, and the invocations of
`func` so far, each with its time and its arguments. -/
structure Debounced (α : Type) where
  timeout : Option Nat
  pending : List (Timer α)
  nextId : Nat
  invoked : List (Nat × α)

/-- The wrapper right after `debounce(func, wait)` returned it. -/
def Debounced.init (α : Type) : Debounced α :=
  { timeout := none, pending := [], nextId := 0, invoked := [] }

/-- The wrapper `executedFunction(...args)`, called at time `now`. -/
def executedFunction {α : Type} (wait now : Nat) (args : α) (d : Debounced α) : Debounced α :=
  let pending := clearTimeout d.timeout d.pending
  { d with
    timeout := some d.nextId
    pending := pending ++ [{ id := d.nextId, due := now + wait, closure := args }]
    nextId := d.nextId + 1 }

/-- The timer callback `later` of a call with arguments `args`, run at time
`now`. -/
def later {α : Type} (now : Nat) (args : α) (d : Debounced α) : Debounced α :=
  { d with
    pending := clearTimeout d.timeout d.pending
    invoked := d.invoked ++ [(now, args)] }

/-- Runs the pending timers of the wrapper that are due within the limit. -/
def Debounced.runTimers {α : Type} (limit : Option Nat) : Nat → Debounced α → Debounced α
  | 0, d => d
  | fuel + 1, d =>
    match earliest d.pending with
    | none => d
    | some t =>
      if withinLimit limit t.due then
        Debounced.runTimers limit fuel
          (later t.due t.closure { d with pending := d.pending.filter (fun u => u.id != t.id) })
      else d

/-- Calls of the wrapper at the given times with the given arguments, in
order; the timers due by the time of a call run before it. -/
def calls {α : Type} (wait : Nat) : List (Nat × α) → Debounced α → Debounced α
  | [], d => d
  | (now, args) :: rest, d =>
    calls wait rest (executedFunction wait now args (Debounced.runTimers (some now) d.pending.length d))

/-- The wrapper once every pending timer has fired. -/
def Debounced.settle {α : Type} (d : Debounced α) : Debounced α :=
  Debounced.runTimers none d.pending.length d

/-- A burst: each call follows the previous one, by less than `wait`. -/
def isBurst {α : Type} (wait : Nat) : List (Nat × α) → Prop
  | [] => True
  | [_] => True
  | a :: b :: rest => a.1 ≤ b.1 ∧ b.1 < a.1 + wait ∧ isBurst wait (b :: rest)

/-! ## Double-precision arithmetic

JavaScript Numbers are IEEE 754 doubles.  The counter animation only produces
non-negative values, and from an integer target at least 1 only values that
are multiples of `2^-64` (the increment is at least `1/20`, so its last
significant bit is worth at least `2^-57`).  Such a Number `x` is represented
by the natural number `x * 2^64`.  Every operation computes the exact result
and rounds it to 53 significant bits, to nearest, ties to even.  Overflow
(values from `2^1024`) is not modelled. -/

/-- The fixed-point unit: the representation of the Number 1. -/
def scale : Nat := 2 ^ 64

/-- The number of low bits of `n` that do not fit in a significand of 53
bits. -/
def excessBits : Nat → Nat → Nat
  | 0, _ => 0
  | fuel + 1, n => if n < 2 ^ 53 then 0 else 1 + excessBits fuel (n / 2)

/-- Rounds the exact value `n + f` to 53 significant bits, to nearest, ties to
even, where `f` is a fraction of a unit with `0 ≤ f < 1`, and `f ≠ 0` exactly
when `sticky` is set.  A value that fits in 53 bits is returned as it is. -/
def round53 (n : Nat) (sticky : Bool) : Nat :=
  let e := excessBits n n
  if e = 0 then n
  else
    let q := n / 2 ^ e
    let r := n % 2 ^ e
    let half := 2 ^ (e - 1)
    if r < half ∨ (r = half ∧ sticky = false ∧ q % 2 = 0) then q * 2 ^ e
    else (q + 1) * 2 ^ e

/-- The Number value of a non-negative integer, as `parseInt` yields it for
a decimal numeral. -/
def Double.ofNat (n : Nat) : Nat := round53 (n * scale) false

/-- The sum `a + b` of two Numbers. -/
def Double.add (a b : Nat) : Nat := round53 (a + b) false

/-- The quotient `a / b` of two Numbers, for `b` other than 0. -/
def Double.div (a b : Nat) : Nat :=
  round53 (a * scale / b) (decide (a * scale % b ≠ 0))

/-- The integer `Math.floor(a)`. -/
def Double.floor (a : Nat) : Nat := a / scale

/-! ## Counter animation (`animateCounter`) -/

/-- The state of one animation: the variable `current`, the integer written
to `textContent` last, the number of ticks of the interval timer that have
run, and whether the timer is still set. -/
structure Counter where
  current : Nat
  shown : Nat
  ticks : Nat
  running : Bool
  deriving DecidableEq, Repr

/-- The callback of the interval timer. -/
def tick (target increment : Nat) (c : Counter) : Counter :=
  let current := Double.add c.current increment
  if target ≤ current then
    { current := target, shown := Double.floor target, ticks := c.ticks + 1, running := false }
  else
    { current := current, shown := Double.floor current, ticks := c.ticks + 1, running := true }

/-- The constant `target` of `animateCounter`, for an element whose text is
the numeral of `text`: `parseInt(element.textContent)`. -/
def counterTarget (text : Nat) : Nat := Double.ofNat text

/-- The constant `increment` of `animateCounter`: `target / 20`. -/
def counterIncrement (text : Nat) : Nat :=
  Double.div (counterTarget text) (Double.ofNat 20)

/-- The function `animateCounter(element)` for an element whose text is the
numeral of `text`, followed to the moment `50 * k` ms later: the interval
timer has come due `k` times and has run its callback each time it was still
set. -/
def animateCounter (text : Nat) : Nat → Counter
  | 0 => { current := 0, shown := text, ticks := 0, running := true }
  | k + 1 =>
    let c := animateCounter text k
    if c.running then tick (counterTarget text) (counterIncrement text) c else c

/-! ## Auxiliary notions for the statements -/

/-- A string of decimal digit characters. -/
def IsNumeral (s : JsString) : Prop := ∀ c ∈ s, ∃ d, d < 10 ∧ c = digitChar d

/-- The classes of the stars agree with the committed rating: the star at
position `j` is filled when `j` is below the rating the mouseleave handler
reads, and unfilled otherwise. -/
def Agrees (w : RatingContainer) : Prop :=
  ∀ j (hj : j < w.stars.length),
    ((j : Int) < currentRating w → (w.stars[j]).filled) ∧
    (¬ (j : Int) < currentRating w → (w.stars[j]).unfilled)

instance (w : RatingContainer) : Decidable (Agrees w) := by unfold Agrees; infer_instance

/-- The events of a rating container. -/
inductive RatingEvent where
  | click : Nat → RatingEvent
  | enter : Nat → RatingEvent
  | leave : RatingEvent
  deriving DecidableEq, Repr

/-- The handler an event runs. -/
def RatingEvent.run : RatingEvent → RatingContainer → RatingContainer
  | RatingEvent.click i, w => ReviewPilot.click i w
  | RatingEvent.enter i, w => mouseenter i w
  | RatingEvent.leave, w => mouseleave w

/-- The state after a sequence of events. -/
def runEvents (es : List RatingEvent) (w : RatingContainer) : RatingContainer :=
  es.foldl (fun w e => e.run w) w

/-- The event is a click. -/
def RatingEvent.isClick : RatingEvent → Bool
  | RatingEvent.click _ => true
  | _ => false

/-- A rating container of three stars, none filled, with an empty hidden
input. -/
def threeStars : RatingContainer :=
  { stars := [⟨["fas", "fa-star", "text-muted"], []⟩, ⟨["fas", "fa-star", "text-muted"], []⟩,
      ⟨["fas", "fa-star", "text-muted"], []⟩]
    input := some []
    changeEvents := 0 }

/-- Three stars, none filled, without a hidden input. -/
def threeStarsNoInput : RatingContainer :=
  { threeStars with input := none }

/-- A lower-casing function for the examples: it maps the ASCII capital
letters and keeps every other character. -/
def asciiLower (s : JsString) : JsString := s.map Char.toLower

/-- Two rows of a table for the examples. -/
def sampleRows : List Row :=
  [⟨"Alice Smith".toList, "none".toList⟩, ⟨"Bob".toList, []⟩]

/-- The strings a regular expression denotes. -/
def Regex.Matches : Regex → JsString → Prop
  | Regex.empty, _ => False
  | Regex.eps, s => s = []
  | Regex.cls p, s => ∃ c, p c = true ∧ s = [c]
  | Regex.seq a b, s => ∃ s1 s2, s = s1 ++ s2 ∧ Regex.Matches a s1 ∧ Regex.Matches b s2
  | Regex.alt a b, s => Regex.Matches a s ∨ Regex.Matches b s
  | Regex.star a, s => ∃ parts : List JsString, s = parts.flatten ∧ ∀ p ∈ parts, Regex.Matches a p

/-- A non-empty run of characters that are neither white space nor `@`. -/
def IsRun (s : JsString) : Prop := s ≠ [] ∧ ∀ c ∈ s, notSpaceNotAt c = true

/-- An attached email input with the given value and no other element under
its parent. -/
def emailInput (value : JsString) : EmailField :=
  { value := value, classList := ["form-control"], parent := some ([], []) }

/-- No element under a list carries the class `email-feedback`. -/
def NoFeedback (l : List Node) : Prop := ∀ n ∈ l, isFeedback n.classList = false

/-- An attached email input, already marked invalid by the server, with a
label before it and a help text after it. -/
def labelledInput : EmailField :=
  { value := "x".toList
    classList := ["form-control", "is-invalid"]
    parent := some ([⟨["form-label"], "Email".toList⟩], [⟨["form-text"], "Work address".toList⟩]) }

/-- The states the input goes through: the elements under the parent are the
initial ones, followed by at most one feedback element, which is there exactly
when the input is marked. -/
def Settled (before after : List Node) (f : EmailField) : Prop :=
  isFeedback f.classList = false ∧
  ((f.parent = some (before, after) ∧ ¬ f.invalid) ∨
    (f.parent = some (before, after ++ [feedbackDiv]) ∧ f.invalid))

/-- The wrapper has one pending timer, the one `timeout` names, due `wait`
after the call at time `t` with arguments `args`, and `func` has not been
invoked. -/
def Armed {α : Type} (wait : Nat) (d : Debounced α) (t : Nat) (args : α) : Prop :=
  d.invoked = [] ∧ ∃ id, d.timeout = some id ∧ d.pending = [⟨id, t + wait, args⟩]

/-- A form with the submit button `Save`, before any submit event. -/
def saveForm : GuardedForm :=
  { classList := ["needs-validation"]
    submitBtn := some { innerHTML := "Save".toList, disabled := false }
    timers := []
    nextId := 0 }

/-- A Number of the model that a double holds exactly: a significand below
`2^53` times a power of two. -/
def Representable (m : Nat) : Prop := ∃ k j, k < 2 ^ 53 ∧ m = k * 2 ^ j

/-- The variable `current` after `k` additions of the increment, without the
clamp to the target. -/
def accumulate (increment : Nat) : Nat → Nat
  | 0 => 0
  | k + 1 => Double.add (accumulate increment k) increment
/-! # Properties -/

/-! ## Class lists -/

theorem mem_classListAdd (cl : List String) (token t : String) :
    t ∈ classListAdd cl token ↔ t ∈ cl ∨ t = token := by
  unfold classListAdd
  split
  · constructor
    · intro h; exact Or.inl h
    · rintro (h | h)
      · exact h
      · subst h; assumption
  · simp

theorem mem_classListRemove (cl : List String) (token t : String) :
    t ∈ classListRemove cl token ↔ t ∈ cl ∧ t ≠ token := by
  unfold classListRemove
  simp [List.mem_filter]

theorem classListRemove_of_not_mem (cl : List String) (token : String) (h : token ∉ cl) :
    classListRemove cl token = cl := by
  unfold classListRemove
  rw [List.filter_eq_self]
  intro a ha
  simp only [bne_iff_ne, ne_eq]
  rintro rfl
  exact h ha

theorem classListAdd_of_mem (cl : List String) (token : String) (h : token ∈ cl) :
    classListAdd cl token = cl := by
  unfold classListAdd
  simp [h]

theorem renderStar_color (b : Bool) (s : Star) : (renderStar b s).color = s.color := by
  unfold renderStar
  split <;> rfl

theorem renderStar_true_filled (s : Star) : (renderStar true s).filled := by
  unfold renderStar Star.filled
  simp only [if_true]
  refine ⟨(mem_classListAdd _ _ _).2 (Or.inr rfl), ?_⟩
  intro h
  rcases (mem_classListAdd _ _ _).1 h with h | h
  · exact ((mem_classListRemove _ _ _).1 h).2 rfl
  · exact absurd h (by decide)

theorem renderStar_false_unfilled (s : Star) : (renderStar false s).unfilled := by
  unfold renderStar Star.unfilled
  simp only [Bool.false_eq_true, if_false]
  refine ⟨(mem_classListAdd _ _ _).2 (Or.inr rfl), ?_⟩
  intro h
  rcases (mem_classListAdd _ _ _).1 h with h | h
  · exact ((mem_classListRemove _ _ _).1 h).2 rfl
  · exact absurd h (by decide)

theorem renderStar_true_of_filled (s : Star) (h : s.filled) : renderStar true s = s := by
  unfold renderStar
  simp only [if_true]
  rw [classListRemove_of_not_mem _ _ h.2, classListAdd_of_mem _ _ h.1]

theorem renderStar_false_of_unfilled (s : Star) (h : s.unfilled) : renderStar false s = s := by
  unfold renderStar
  simp only [Bool.false_eq_true, if_false]
  rw [classListRemove_of_not_mem _ _ h.2, classListAdd_of_mem _ _ h.1]

theorem not_filled_of_unfilled (s : Star) (h : s.unfilled) : ¬ s.filled :=
  fun hf => hf.2 h.1

theorem not_unfilled_of_filled (s : Star) (h : s.filled) : ¬ s.unfilled :=
  fun hu => hu.2 h.1

/-- Counting the members of a list that satisfy a predicate holding exactly
on the first `k` positions. -/
theorem countP_first (α : Type) (p : α → Bool) (l : List α) (k : Nat) (hk : k ≤ l.length)
    (h : ∀ j (hj : j < l.length), p l[j] = true ↔ j < k) : l.countP p = k := by
  induction l generalizing k with
  | nil =>
    simp at hk
    subst hk
    rfl
  | cons a t ih =>
    cases k with
    | zero =>
      rw [List.countP_eq_zero]
      intro x hx
      obtain ⟨j, hj, rfl⟩ := List.getElem_of_mem hx
      simpa using (h j hj).not.2 (Nat.not_lt_zero j)
    | succ k =>
      have h0 : p a = true := (h 0 (by simp)).2 (Nat.succ_pos k)
      rw [List.countP_cons_of_pos _ _ h0]
      congr 1
      apply ih k (by simpa using hk)
      intro j hj
      have := h (j + 1) (by simpa using hj)
      simpa using this


/-! ## Numerals -/

theorem digitChar_toNat (d : Nat) (h : d < 10) : (digitChar d).toNat = 48 + d := by
  interval_cases d <;> rfl

theorem digitValue_digitChar (d : Nat) (h : d < 10) : digitValue 10 (digitChar d) = some d := by
  interval_cases d <;> rfl

theorem isWhiteSpace_digitChar (d : Nat) (h : d < 10) : isWhiteSpace (digitChar d) = false := by
  interval_cases d <;> rfl

theorem digitChar_ne (d : Nat) (h : d < 10) :
    digitChar d ≠ '-' ∧ digitChar d ≠ '+' ∧ digitChar d ≠ 'x' ∧ digitChar d ≠ 'X' := by
  interval_cases d <;> decide

theorem toDigits10_isNumeral (fuel n : Nat) (acc : List Char) (h : IsNumeral acc) :
    IsNumeral (toDigits10 fuel n acc) := by
  induction fuel generalizing n acc with
  | zero => simpa [toDigits10] using h
  | succ fuel ih =>
    unfold toDigits10
    split
    · intro c hc
      rcases List.mem_cons.1 hc with rfl | hc
      · exact ⟨n, by assumption, rfl⟩
      · exact h c hc
    · apply ih
      intro c hc
      rcases List.mem_cons.1 hc with rfl | hc
      · exact ⟨n % 10, Nat.mod_lt _ (by decide), rfl⟩
      · exact h c hc

theorem toDigits10_ne_nil (fuel n : Nat) (acc : List Char) :
    toDigits10 (fuel + 1) n acc ≠ [] := by
  induction fuel generalizing n acc with
  | zero =>
    unfold toDigits10
    split
    · simp
    · simp [toDigits10]
  | succ fuel ih =>
    unfold toDigits10
    split
    · simp
    · exact ih _ _

theorem foldl_toDigits10 (fuel n : Nat) (acc : List Char) (h : n < fuel) :
    (toDigits10 fuel n acc).foldl (fun a c => a * 10 + (digitValue 10 c).getD 0) 0 =
      acc.foldl (fun a c => a * 10 + (digitValue 10 c).getD 0) n := by
  induction fuel generalizing n acc with
  | zero => omega
  | succ fuel ih =>
    unfold toDigits10
    split
    · rename_i hn
      simp [List.foldl_cons, digitValue_digitChar n hn]
    · rename_i hn
      rw [ih (n / 10) _ (by omega)]
      simp only [List.foldl_cons, digitValue_digitChar (n % 10) (Nat.mod_lt _ (by decide)),
        Option.getD_some]
      congr 1
      omega

theorem parseInt_numeral (s : JsString) (hnum : IsNumeral s) (hne : s ≠ []) :
    parseInt s =
      some ((s.foldl (fun a c => a * 10 + (digitValue 10 c).getD 0) 0 : Nat) : Int) := by
  obtain ⟨c, rest, hs⟩ := List.exists_cons_of_ne_nil hne
  obtain ⟨d, hd, hc⟩ := hnum c (by rw [hs]; simp)
  have hcne := digitChar_ne d hd
  have hdrop : s.dropWhile isWhiteSpace = s := by
    rw [hs, List.dropWhile_cons, hc, isWhiteSpace_digitChar d hd]
    simp
  have hhead : s.head? = some c := by rw [hs]; rfl
  have h1 : ¬ (s.head? = some '-') := by
    rw [hhead, hc]; intro h; exact hcne.1 (Option.some.inj h)
  have h2 : ¬ (s.head? = some '+') := by
    rw [hhead, hc]; intro h; exact hcne.2.1 (Option.some.inj h)
  have hx : ∀ y : Char, (∀ d, d < 10 → digitChar d ≠ y) → (s.take 2 == ['0', y]) = false := by
    intro y hy
    rw [beq_eq_false_iff_ne]
    intro h
    have hmem : y ∈ s.take 2 := by rw [h]; simp
    obtain ⟨d', hd', hy'⟩ := hnum y (List.mem_of_mem_take hmem)
    exact hy d' hd' hy'.symm
  have hx1 := hx 'x' (fun d hd => (digitChar_ne d hd).2.2.1)
  have hx2 := hx 'X' (fun d hd => (digitChar_ne d hd).2.2.2)
  have htake : s.takeWhile (fun c => (digitValue 10 c).isSome) = s := by
    rw [List.takeWhile_eq_self_iff]
    intro c hc
    obtain ⟨d', hd', rfl⟩ := hnum c hc
    rw [digitValue_digitChar d' hd']
    rfl
  unfold parseInt
  simp only [hdrop, h1, h2, or_self, if_false, hx1, hx2, Bool.or_self, Bool.false_eq_true,
    htake, hne, one_mul]

/-- Reading back a decimal numeral: `parseInt(String(n))` is `n`. -/
theorem parseInt_numberToString (n : Nat) : parseInt (numberToString n) = some (n : Int) := by
  have hnum : IsNumeral (numberToString n) :=
    toDigits10_isNumeral _ _ _ (by intro c hc; simp at hc)
  have hne : numberToString n ≠ [] := toDigits10_ne_nil _ _ _
  have hval := foldl_toDigits10 (n + 1) n [] (Nat.lt_succ_self n)
  rw [parseInt_numeral _ hnum hne]
  unfold numberToString
  rw [hval]
  rfl

/-! ## Rating stars -/

theorem click_stars_length (i : Nat) (w : RatingContainer) :
    (click i w).stars.length = w.stars.length := by
  simp [click]

theorem click_star (i : Nat) (w : RatingContainer) (j : Nat) (hj : j < w.stars.length)
    (hj2 : j < (click i w).stars.length) :
    (click i w).stars[j] = renderStar (decide (j < i + 1)) w.stars[j] := by
  simp [click]

theorem mouseenter_stars_length (i : Nat) (w : RatingContainer) :
    (mouseenter i w).stars.length = w.stars.length := by
  simp [mouseenter]

theorem mouseleave_stars_length (w : RatingContainer) :
    (mouseleave w).stars.length = w.stars.length := by
  simp [mouseleave]

theorem renderStar_filled_iff (b : Bool) (s : Star) : (renderStar b s).filled ↔ b = true := by
  cases b
  · simpa using not_filled_of_unfilled _ (renderStar_false_unfilled s)
  · simpa using renderStar_true_filled s

theorem renderStar_unfilled_iff (b : Bool) (s : Star) : (renderStar b s).unfilled ↔ b = false := by
  cases b
  · simpa using renderStar_false_unfilled s
  · simpa using not_unfilled_of_filled _ (renderStar_true_filled s)

/-- C1.  After the click handler of star `i` has run on a rating container
with a hidden input, from any prior state, the value of the hidden input is
the numeral of `i + 1` (which `parseInt` reads back as `i + 1`), the star at
each position `j` carries `text-warning` and not `text-muted` exactly when
`j < i + 1` and carries `text-muted` and not `text-warning` exactly when not,
and the number of filled stars is `i + 1`. -/
theorem click_commits_rating (w : RatingContainer) (v : JsString) (i : Nat)
    (hinput : w.input = some v) (hi : i < w.stars.length) :
    (click i w).input = some (numberToString (i + 1)) ∧
    parseInt (numberToString (i + 1)) = some ((i : Int) + 1) ∧
    (click i w).stars.length = w.stars.length ∧
    (∀ j (hj : j < (click i w).stars.length),
      (((click i w).stars[j]).filled ↔ j < i + 1) ∧
      (((click i w).stars[j]).unfilled ↔ ¬ j < i + 1)) ∧
    (click i w).stars.countP (fun s => decide s.filled) = i + 1 := by
  have hstar : ∀ j (hj : j < (click i w).stars.length),
      (((click i w).stars[j]).filled ↔ j < i + 1) ∧
      (((click i w).stars[j]).unfilled ↔ ¬ j < i + 1) := by
    intro j hj
    rw [click_star i w j (by simpa [click] using hj) hj, renderStar_filled_iff, renderStar_unfilled_iff]
    simp
  refine ⟨?_, ?_, click_stars_length i w, hstar, ?_⟩
  · simp [click, hinput]
  · simpa using parseInt_numberToString (i + 1)
  · apply countP_first
    · rw [click_stars_length]; omega
    · intro j hj
      simpa using (hstar j hj).1

theorem click_commits_rating_witness :
    threeStars.input = some [] ∧ 1 < threeStars.stars.length ∧
    (click 1 threeStars).input = some (numberToString 2) ∧
    (click 1 threeStars).stars.countP (fun s => decide s.filled) = 2 :=
  ⟨rfl, by decide,
    (click_commits_rating threeStars [] 1 rfl (by decide)).1,
    (click_commits_rating threeStars [] 1 rfl (by decide)).2.2.2.2⟩

theorem mouseenter_star (i : Nat) (w : RatingContainer) (j : Nat) (hj : j < w.stars.length)
    (hj2 : j < (mouseenter i w).stars.length) :
    (mouseenter i w).stars[j] =
      if j < i + 1 then { w.stars[j] with color := "#ffc107".toList }
      else { w.stars[j] with color := [] } := by
  simp [mouseenter]

theorem mouseleave_star (w : RatingContainer) (j : Nat) (hj : j < w.stars.length)
    (hj2 : j < (mouseleave w).stars.length) :
    (mouseleave w).stars[j] =
      renderStar (decide ((j : Int) < currentRating w)) { w.stars[j] with color := [] } := by
  simp [mouseleave]

theorem currentRating_mouseenter (i : Nat) (w : RatingContainer) :
    currentRating (mouseenter i w) = currentRating w := rfl

theorem currentRating_mouseleave (w : RatingContainer) :
    currentRating (mouseleave w) = currentRating w := rfl

theorem currentRating_click (i : Nat) (w : RatingContainer) (h : w.input.isSome) :
    currentRating (click i w) = (i : Int) + 1 := by
  obtain ⟨v, hv⟩ := Option.isSome_iff_exists.1 h
  unfold currentRating
  simp only [click, hv, Option.map_some']
  rw [parseInt_numberToString]
  simp

theorem agrees_mouseenter (i : Nat) (w : RatingContainer) (h : Agrees w) :
    Agrees (mouseenter i w) := by
  intro j hj
  have hj1 : j < w.stars.length := by simpa [mouseenter] using hj
  rw [currentRating_mouseenter, mouseenter_star i w j hj1 hj]
  have := h j hj1
  split <;> exact this

theorem agrees_mouseleave (w : RatingContainer) : Agrees (mouseleave w) := by
  intro j hj
  have hj1 : j < w.stars.length := by simpa [mouseleave] using hj
  rw [currentRating_mouseleave, mouseleave_star w j hj1 hj]
  constructor
  · intro hlt
    rw [renderStar_filled_iff]
    simpa using hlt
  · intro hlt
    rw [renderStar_unfilled_iff]
    simpa using hlt

theorem agrees_click (i : Nat) (w : RatingContainer) (h : w.input.isSome) :
    Agrees (click i w) := by
  intro j hj
  have hj1 : j < w.stars.length := by simpa [click] using hj
  rw [currentRating_click i w h, click_star i w j hj1 hj]
  constructor
  · intro hlt
    rw [renderStar_filled_iff]
    simp only [decide_eq_true_eq]
    omega
  · intro hlt
    rw [renderStar_unfilled_iff]
    simp only [decide_eq_false_iff_not]
    omega

theorem input_run (e : RatingEvent) (w : RatingContainer) :
    (e.run w).input.isSome = w.input.isSome := by
  cases e <;> simp [RatingEvent.run, click, mouseenter, mouseleave]

theorem agrees_run (e : RatingEvent) (w : RatingContainer) (h : Agrees w)
    (hc : w.input.isSome ∨ e.isClick = false) : Agrees (e.run w) := by
  cases e with
  | click i =>
    rcases hc with hc | hc
    · exact agrees_click i w hc
    · simp [RatingEvent.isClick] at hc
  | enter i => exact agrees_mouseenter i w h
  | leave => exact agrees_mouseleave w

theorem agrees_runEvents (es : List RatingEvent) (w : RatingContainer) (h : Agrees w)
    (hc : w.input.isSome ∨ ∀ e ∈ es, e.isClick = false) : Agrees (runEvents es w) := by
  induction es generalizing w with
  | nil => exact h
  | cons e es ih =>
    unfold runEvents
    rw [List.foldl_cons]
    apply ih
    · apply agrees_run e w h
      rcases hc with hc | hc
      · exact Or.inl hc
      · exact Or.inr (hc e (by simp))
    · rcases hc with hc | hc
      · left; rw [input_run]; exact hc
      · right; intro e' he'; exact hc e' (by simp [he'])

/-- Hovering over an agreeing state: the classes are kept and the inline
colours are cleared. -/
theorem hover_leave_of_agrees (w : RatingContainer) (i : Nat) (h : Agrees w) :
    mouseleave (mouseenter i w) =
      { w with stars := w.stars.map (fun s => { s with color := [] }) } := by
  have hlen : (mouseleave (mouseenter i w)).stars.length = w.stars.length := by
    rw [mouseleave_stars_length, mouseenter_stars_length]
  have hstars : (mouseleave (mouseenter i w)).stars =
      w.stars.map (fun s => { s with color := [] }) := by
    apply List.ext_getElem
    · simpa using hlen
    · intro j hj1 hj2
      have hjw : j < w.stars.length := by rw [← hlen]; exact hj1
      have hje : j < (mouseenter i w).stars.length := by
        rw [mouseenter_stars_length]; exact hjw
      rw [mouseleave_star _ j hje hj1, currentRating_mouseenter, mouseenter_star i w j hjw hje]
      rw [List.getElem_map]
      have hag := h j hjw
      by_cases hlt : (j : Int) < currentRating w
      · have hf := hag.1 hlt
        simp only [hlt, decide_True]
        split <;> exact renderStar_true_of_filled _ hf
      · have hu := hag.2 hlt
        simp only [hlt, decide_False]
        split <;> exact renderStar_false_of_unfilled _ hu
  have h1 : (mouseleave (mouseenter i w)).input = w.input := rfl
  have h2 : (mouseleave (mouseenter i w)).changeEvents = w.changeEvents := rfl
  cases hw : mouseleave (mouseenter i w) with
  | mk st inp ce =>
    rw [hw] at hstars h1 h2
    simp only at hstars h1 h2
    subst hstars h1 h2
    rfl

/-- C2, as the code has it.  Take a rating container whose classes agree with
the committed rating at the initial render, and any state it reaches by
clicks, pointer-enters and pointer-leaves, where the container has a hidden
input or no click occurs.  Running the pointer-enter handler of a star and
then the pointer-leave handler of the container leaves the hidden input and
the class list of every star as they were, and clears every inline colour;
so the whole state is as before the pointer-enter whenever no inline colour
was set before it. -/
theorem hover_then_leave_restores (w0 : RatingContainer) (es : List RatingEvent) (i : Nat)
    (h0 : Agrees w0) (hc : w0.input.isSome ∨ ∀ e ∈ es, e.isClick = false) :
    (mouseleave (mouseenter i (runEvents es w0))).input = (runEvents es w0).input ∧
    (mouseleave (mouseenter i (runEvents es w0))).stars.map Star.classList =
      (runEvents es w0).stars.map Star.classList ∧
    (∀ t ∈ (mouseleave (mouseenter i (runEvents es w0))).stars, t.color = []) ∧
    ((∀ t ∈ (runEvents es w0).stars, t.color = []) →
      mouseleave (mouseenter i (runEvents es w0)) = runEvents es w0) := by
  have hag := agrees_runEvents es w0 h0 hc
  have hov := hover_leave_of_agrees (runEvents es w0) i hag
  rw [hov]
  refine ⟨rfl, ?_, ?_, ?_⟩
  · simp only [List.map_map]
    rfl
  · intro t ht
    simp only [List.mem_map] at ht
    obtain ⟨u, _, rfl⟩ := ht
    rfl
  · intro hcol
    have : (runEvents es w0).stars.map (fun s => { s with color := [] }) =
        (runEvents es w0).stars := by
      conv_rhs => rw [← List.map_id (runEvents es w0).stars]
      apply List.map_congr_left
      intro t ht
      have := hcol t ht
      cases t
      simp only at this
      subst this
      rfl
    rw [this]

theorem hover_then_leave_restores_witness :
    Agrees threeStars ∧
    (mouseleave (mouseenter 1
      (runEvents [RatingEvent.enter 0, RatingEvent.click 0, RatingEvent.leave] threeStars))) =
      runEvents [RatingEvent.enter 0, RatingEvent.click 0, RatingEvent.leave] threeStars :=
  ⟨by decide,
    (hover_then_leave_restores threeStars
      [RatingEvent.enter 0, RatingEvent.click 0, RatingEvent.leave] 1 (by decide)
      (Or.inl rfl)).2.2.2 (by decide)⟩

/-- C2 fails as stated.  In the state reached from the initial render by a
pointer-enter on star 0, a pointer-enter on star 1 followed by the
pointer-leave does not give back the inline colours; and in a container
without a hidden input, after a click on star 0, a pointer-enter followed by
the pointer-leave does not give back the classes. -/
theorem hover_not_always_reversible :
    (Agrees threeStars ∧
      (mouseleave (mouseenter 1 (runEvents [RatingEvent.enter 0] threeStars))).stars.map
          Star.color ≠
        (runEvents [RatingEvent.enter 0] threeStars).stars.map Star.color) ∧
    (Agrees threeStarsNoInput ∧
      (mouseleave (mouseenter 1 (runEvents [RatingEvent.click 0] threeStarsNoInput))).stars.map
          Star.classList ≠
        (runEvents [RatingEvent.click 0] threeStarsNoInput).stars.map Star.classList) := by
  decide

/-! ## Table search -/

theorem startsWith_iff (text search : JsString) :
    startsWith text search = true ↔ ∃ post, text = search ++ post := by
  induction search generalizing text with
  | nil => simp [startsWith]
  | cons d ds ih =>
    cases text with
    | nil => simp [startsWith]
    | cons c cs =>
      simp only [startsWith, Bool.and_eq_true, beq_iff_eq, ih, List.cons_append, List.cons.injEq]
      constructor
      · rintro ⟨rfl, post, rfl⟩
        exact ⟨post, rfl, rfl⟩
      · rintro ⟨post, rfl, rfl⟩
        exact ⟨rfl, post, rfl⟩

theorem includes_iff (text search : JsString) :
    includes text search = true ↔ ∃ pre post, text = pre ++ search ++ post := by
  induction text with
  | nil =>
    simp only [includes, startsWith_iff]
    constructor
    · rintro ⟨post, h⟩
      exact ⟨[], post, by simpa using h⟩
    · rintro ⟨pre, post, h⟩
      have h1 : pre ++ search ++ post = [] := h.symm
      simp only [List.append_eq_nil] at h1
      exact ⟨[], by simp [h1.1.2]⟩
  | cons c cs ih =>
    simp only [includes, Bool.or_eq_true, startsWith_iff, ih]
    constructor
    · rintro (⟨post, h⟩ | ⟨pre, post, h⟩)
      · exact ⟨[], post, by simpa using h⟩
      · exact ⟨c :: pre, post, by simp [h]⟩
    · rintro ⟨pre, post, h⟩
      cases pre with
      | nil => exact Or.inl ⟨post, by simpa using h⟩
      | cons p pre =>
        simp only [List.cons_append, List.cons.injEq] at h
        exact Or.inr ⟨pre, post, h.2⟩

theorem includes_nil (text : JsString) : includes text [] = true := by
  rw [includes_iff]
  exact ⟨[], text, rfl⟩

theorem keyup_getElem (lc : JsString → JsString) (q : JsString) (rows : List Row) (k : Nat)
    (h1 : k < (keyup lc q rows).length) (h2 : k < rows.length) :
    (keyup lc q rows)[k] =
      if includes (lc rows[k].textContent) (lc q) then { rows[k] with display := [] }
      else { rows[k] with display := "none".toList } := by
  simp [keyup]

/-- C3.  After the keyup handler has run with query `q`, whatever the rows
showed before, the table has the same rows with the same text, and a row is
visible (its display is not `none`) exactly when the lower-cased query occurs
in its lower-cased text.  With the empty query every row is visible (the
lower-cased empty string being empty), and running the handler again with
the same query changes nothing. -/
theorem keyup_shows_matching_rows (toLowerCase : JsString → JsString) (q : JsString)
    (rows : List Row) :
    (keyup toLowerCase q rows).map Row.textContent = rows.map Row.textContent ∧
    (∀ k (h1 : k < (keyup toLowerCase q rows).length) (h2 : k < rows.length),
      ((keyup toLowerCase q rows)[k]).visible ↔
        ∃ pre post, toLowerCase rows[k].textContent = pre ++ toLowerCase q ++ post) ∧
    (toLowerCase [] = [] → ∀ r ∈ keyup toLowerCase [] rows, r.visible) ∧
    keyup toLowerCase q (keyup toLowerCase q rows) = keyup toLowerCase q rows := by
  refine ⟨?_, ?_, ?_, ?_⟩
  · unfold keyup
    rw [List.map_map]
    apply List.map_congr_left
    intro r _
    simp only [Function.comp]
    split <;> rfl
  · intro k h1 h2
    rw [keyup_getElem toLowerCase q rows k h1 h2, ← includes_iff]
    unfold Row.visible
    split
    · rename_i h
      simp only [h, iff_true]
      decide
    · rename_i h
      simp [h]
  · intro hnil r hr
    unfold keyup at hr
    rw [hnil] at hr
    simp only [includes_nil, if_true, List.mem_map] at hr
    obtain ⟨r0, _, rfl⟩ := hr
    show ([] : JsString) ≠ "none".toList
    decide
  · unfold keyup
    rw [List.map_map]
    apply List.map_congr_left
    intro r _
    simp only [Function.comp]
    split <;> rename_i h <;> simp [h]

theorem keyup_shows_matching_rows_witness :
    asciiLower [] = [] ∧
    (∀ r ∈ keyup asciiLower [] sampleRows, r.visible) ∧
    keyup asciiLower "aLi".toList sampleRows =
      [⟨"Alice Smith".toList, []⟩, ⟨"Bob".toList, "none".toList⟩] :=
  ⟨rfl, (keyup_shows_matching_rows asciiLower [] sampleRows).2.2.1 rfl, by decide⟩

/-! ## Regular expressions -/

theorem nullable_iff (r : Regex) : r.nullable = true ↔ r.Matches [] := by
  induction r with
  | empty => simp [Regex.nullable, Regex.Matches]
  | eps => simp [Regex.nullable, Regex.Matches]
  | cls p => simp [Regex.nullable, Regex.Matches]
  | seq a b iha ihb =>
    simp only [Regex.nullable, Regex.Matches, Bool.and_eq_true, iha, ihb]
    constructor
    · rintro ⟨h1, h2⟩
      exact ⟨[], [], rfl, h1, h2⟩
    · rintro ⟨s1, s2, h, h1, h2⟩
      have h' : s1 ++ s2 = [] := h.symm
      simp only [List.append_eq_nil] at h'
      rw [h'.1] at h1
      rw [h'.2] at h2
      exact ⟨h1, h2⟩
  | alt a b iha ihb =>
    simp only [Regex.nullable, Regex.Matches, Bool.or_eq_true, iha, ihb]
  | star a _ =>
    simp only [Regex.nullable, Regex.Matches, true_iff]
    exact ⟨[], rfl, by simp⟩

/-- A non-empty member of a repetition starts with a non-empty member of the
repeated expression. -/
theorem star_cons_inv (a : Regex) (c : Char) (s : JsString) (parts : List JsString)
    (hj : c :: s = parts.flatten) (hp : ∀ p ∈ parts, a.Matches p) :
    ∃ (s1 : JsString) (rest : List JsString), s = s1 ++ rest.flatten ∧ a.Matches (c :: s1) ∧ ∀ p ∈ rest, a.Matches p := by
  induction parts with
  | nil => simp at hj
  | cons p ps ih =>
    cases p with
    | nil =>
      apply ih
      · simpa using hj
      · intro q hq
        exact hp q (by simp [hq])
    | cons d p =>
      simp only [List.flatten_cons, List.cons_append, List.cons.injEq] at hj
      obtain ⟨rfl, rfl⟩ := hj
      exact ⟨p, ps, rfl, hp _ (by simp), fun q hq => hp q (by simp [hq])⟩

theorem deriv_iff (r : Regex) (c : Char) (s : JsString) :
    (r.deriv c).Matches s ↔ r.Matches (c :: s) := by
  induction r generalizing s with
  | empty => simp [Regex.deriv, Regex.Matches]
  | eps => simp [Regex.deriv, Regex.Matches]
  | cls p =>
    simp only [Regex.deriv, Regex.Matches]
    split
    · rename_i h
      simp only [Regex.Matches]
      constructor
      · rintro rfl
        exact ⟨c, h, rfl⟩
      · rintro ⟨d, _, hd⟩
        simp only [List.cons.injEq] at hd
        exact hd.2
    · rename_i h
      simp only [Regex.Matches, false_iff]
      rintro ⟨d, hd, hs⟩
      simp only [List.cons.injEq] at hs
      rw [← hs.1] at hd
      exact h hd
  | seq a b iha ihb =>
    have key : (∃ s1 s2, s = s1 ++ s2 ∧ (a.deriv c).Matches s1 ∧ b.Matches s2) ∨
        (a.Matches [] ∧ (b.deriv c).Matches s) ↔ (Regex.seq a b).Matches (c :: s) := by
      simp only [Regex.Matches]
      constructor
      · rintro (⟨s1, s2, rfl, h1, h2⟩ | ⟨h1, h2⟩)
        · exact ⟨c :: s1, s2, rfl, (iha s1).1 h1, h2⟩
        · exact ⟨[], c :: s, rfl, h1, (ihb s).1 h2⟩
      · rintro ⟨s1, s2, h, h1, h2⟩
        cases s1 with
        | nil =>
          simp only [List.nil_append] at h
          subst h
          exact Or.inr ⟨h1, (ihb s).2 h2⟩
        | cons d s1 =>
          simp only [List.cons_append, List.cons.injEq] at h
          obtain ⟨rfl, rfl⟩ := h
          exact Or.inl ⟨s1, s2, rfl, (iha s1).2 h1, h2⟩
    rw [← key]
    simp only [Regex.deriv]
    split
    · rename_i hn
      simp only [Regex.Matches]
      have hn' := (nullable_iff a).1 hn
      simp [hn']
    · rename_i hn
      simp only [Regex.Matches]
      have hn' : ¬ a.Matches [] := fun h => hn ((nullable_iff a).2 h)
      simp [hn']
  | alt a b iha ihb =>
    simp only [Regex.deriv, Regex.Matches, iha, ihb]
  | star a iha =>
    simp only [Regex.deriv, Regex.Matches]
    constructor
    · rintro ⟨s1, s2, rfl, h1, parts, rfl, hp⟩
      refine ⟨(c :: s1) :: parts, by simp, ?_⟩
      intro p hp'
      rcases List.mem_cons.1 hp' with rfl | hp'
      · exact (iha s1).1 h1
      · exact hp p hp'
    · rintro ⟨parts, hj, hp⟩
      obtain ⟨s1, rest, rfl, h1, hr⟩ := star_cons_inv a c s parts hj hp
      exact ⟨s1, rest.flatten, rfl, (iha s1).2 h1, rest, rfl, hr⟩

/-- The matcher decides the denotation. -/
theorem test_iff (r : Regex) (s : JsString) : r.test s = true ↔ r.Matches s := by
  unfold Regex.test
  induction s generalizing r with
  | nil => simpa using nullable_iff r
  | cons c s ih =>
    rw [List.foldl_cons, ih, deriv_iff]

theorem matches_star_cls (p : Char → Bool) (s : JsString) :
    (Regex.star (Regex.cls p)).Matches s ↔ ∀ c ∈ s, p c = true := by
  simp only [Regex.Matches]
  constructor
  · rintro ⟨parts, rfl, hp⟩ c hc
    simp only [List.mem_flatten] at hc
    obtain ⟨q, hq, hcq⟩ := hc
    obtain ⟨d, hd, rfl⟩ := hp q hq
    simp only [List.mem_singleton] at hcq
    rw [hcq]
    exact hd
  · intro h
    refine ⟨s.map (fun c => [c]), ?_, ?_⟩
    · clear h
      induction s with
      | nil => rfl
      | cons c s ih => simp [← ih]
    · intro q hq
      simp only [List.mem_map] at hq
      obtain ⟨c, hc, rfl⟩ := hq
      exact ⟨c, h c hc, rfl⟩

theorem matches_plus_cls (p : Char → Bool) (s : JsString) :
    (Regex.plus (Regex.cls p)).Matches s ↔ s ≠ [] ∧ ∀ c ∈ s, p c = true := by
  unfold Regex.plus
  simp only [Regex.Matches]
  constructor
  · rintro ⟨s1, s2, rfl, ⟨c, hc, rfl⟩, h2⟩
    have h2' := (matches_star_cls p s2).1 (by simpa only [Regex.Matches] using h2)
    refine ⟨by simp, ?_⟩
    intro d hd
    simp only [List.singleton_append, List.mem_cons] at hd
    rcases hd with rfl | hd
    · exact hc
    · exact h2' d hd
  · rintro ⟨hne, h⟩
    obtain ⟨c, rest, rfl⟩ := List.exists_cons_of_ne_nil hne
    refine ⟨[c], rest, rfl, ⟨c, h c (by simp), rfl⟩, ?_⟩
    have := (matches_star_cls p rest).2 (fun d hd => h d (by simp [hd]))
    simpa only [Regex.Matches] using this

theorem matches_cls_eq (x : Char) (s : JsString) :
    (Regex.cls (fun c => c == x)).Matches s ↔ s = [x] := by
  simp only [Regex.Matches, beq_iff_eq]
  constructor
  · rintro ⟨c, rfl, rfl⟩
    rfl
  · rintro rfl
    exact ⟨x, rfl, rfl⟩

/-- The strings the pattern of `validateEmail` accepts. -/
theorem emailPattern_test_iff (v : JsString) :
    emailPattern.test v = true ↔
      ∃ l d t, IsRun l ∧ IsRun d ∧ IsRun t ∧ v = l ++ '@' :: (d ++ '.' :: t) := by
  rw [test_iff]
  unfold emailPattern
  constructor
  · intro h
    obtain ⟨l, r1, rfl, hl, h⟩ := h
    obtain ⟨a, r2, rfl, ha, h⟩ := h
    obtain ⟨d, r3, rfl, hd, h⟩ := h
    obtain ⟨b, t, rfl, hb, ht⟩ := h
    rw [matches_plus_cls] at hl hd ht
    rw [matches_cls_eq] at ha hb
    subst ha hb
    exact ⟨l, d, t, hl, hd, ht, by simp⟩
  · rintro ⟨l, d, t, hl, hd, ht, rfl⟩
    refine ⟨l, '@' :: (d ++ '.' :: t), rfl, (matches_plus_cls _ _).2 hl, ?_⟩
    refine ⟨['@'], d ++ '.' :: t, rfl, (matches_cls_eq _ _).2 rfl, ?_⟩
    refine ⟨d, '.' :: t, rfl, (matches_plus_cls _ _).2 hd, ?_⟩
    exact ⟨['.'], t, rfl, (matches_cls_eq _ _).2 rfl, (matches_plus_cls _ _).2 ht⟩

/-! ## Email validation -/

theorem notSpaceNotAt_iff (c : Char) :
    notSpaceNotAt c = true ↔ isWhiteSpace c = false ∧ c ≠ '@' := by
  unfold notSpaceNotAt
  simp

theorem isFeedback_classListAdd (cl : List String) :
    isFeedback (classListAdd cl "is-invalid") = isFeedback cl := by
  unfold isFeedback
  rw [Bool.eq_iff_iff]
  simp only [List.contains, List.elem_iff, mem_classListAdd]
  constructor
  · rintro (h | h)
    · exact h
    · exact absurd h (by decide)
  · exact Or.inl

theorem isFeedback_classListRemove (cl : List String) :
    isFeedback (classListRemove cl "is-invalid") = isFeedback cl := by
  unfold isFeedback
  rw [Bool.eq_iff_iff]
  simp only [List.contains, List.elem_iff, mem_classListRemove]
  constructor
  · exact fun h => h.1
  · exact fun h => ⟨h, by decide⟩

/-- What one call of `validateEmail` does to the invalid mark. -/
theorem validateEmail_mark (input : EmailField) (p : List Node × List Node)
    (h : input.parent = some p) :
    ∃ out, validateEmail input = some out ∧ out.value = input.value ∧
      (out.invalid ↔ input.value ≠ [] ∧ emailPattern.test input.value = false) := by
  obtain ⟨before, after⟩ := p
  unfold validateEmail
  simp only [h]
  by_cases hc : input.value ≠ [] ∧ emailPattern.test input.value = false
  · simp only [hc, and_self, if_true, ne_eq, not_false_eq_true]
    have hin : "is-invalid" ∈ classListAdd input.classList "is-invalid" :=
      (mem_classListAdd _ _ _).2 (Or.inr rfl)
    cases queryFeedback before input.classList after with
    | none => exact ⟨_, rfl, rfl, by simpa [EmailField.invalid] using hin⟩
    | some k => exact ⟨_, rfl, rfl, by simpa [EmailField.invalid] using hin⟩
  · simp only [hc, if_false]
    have hout : "is-invalid" ∉ classListRemove input.classList "is-invalid" :=
      fun hm => ((mem_classListRemove _ _ _).1 hm).2 rfl
    cases queryFeedback before input.classList after with
    | none => exact ⟨_, rfl, rfl, by simpa [EmailField.invalid] using hout⟩
    | some k =>
      cases k with
      | before => exact ⟨_, rfl, rfl, by simpa [EmailField.invalid] using hout⟩
      | self => exact ⟨_, rfl, rfl, by simpa [EmailField.invalid] using hout⟩
      | after => exact ⟨_, rfl, rfl, by simpa [EmailField.invalid] using hout⟩

/-- C4, as the code has it.  For every value of an attached email input,
`validateEmail` leaves the input marked invalid exactly when the value is not
empty and is not of the form `L@D.T` with `L`, `D` and `T` non-empty runs of
characters that are neither white space nor `@`; the empty value is treated
as valid. -/
theorem validateEmail_invalid_iff (input : EmailField) (p : List Node × List Node)
    (h : input.parent = some p) :
    ∃ out, validateEmail input = some out ∧
      (out.invalid ↔ input.value ≠ [] ∧
        ¬ ∃ l d t, IsRun l ∧ IsRun d ∧ IsRun t ∧ input.value = l ++ '@' :: (d ++ '.' :: t)) := by
  obtain ⟨out, h1, _, h3⟩ := validateEmail_mark input p h
  refine ⟨out, h1, ?_⟩
  rw [h3, ← emailPattern_test_iff]
  simp

theorem validateEmail_invalid_iff_witness :
    (emailInput "a@b.co".toList).parent = some ([], []) ∧
    (∃ out, validateEmail (emailInput "a@b.co".toList) = some out ∧
      (out.invalid ↔ (emailInput "a@b.co".toList).value ≠ [] ∧
        ¬ ∃ l d t, IsRun l ∧ IsRun d ∧ IsRun t ∧
          (emailInput "a@b.co".toList).value = l ++ '@' :: (d ++ '.' :: t))) ∧
    (validateEmail (emailInput "foo".toList)).map (fun o => decide o.invalid) = some true ∧
    (validateEmail (emailInput "foo@".toList)).map (fun o => decide o.invalid) = some true ∧
    (validateEmail (emailInput "@bar.com".toList)).map (fun o => decide o.invalid) = some true ∧
    (validateEmail (emailInput "foo@bar".toList)).map (fun o => decide o.invalid) = some true ∧
    (validateEmail (emailInput [])).map (fun o => decide o.invalid) = some false ∧
    (validateEmail (emailInput "a@b.co".toList)).map (fun o => decide o.invalid) = some false :=
  ⟨rfl, validateEmail_invalid_iff (emailInput "a@b.co".toList) ([], []) rfl,
    by decide, by decide, by decide, by decide, by decide, by decide⟩

/-- C4 fails as stated.  The value `a@b@c.d` is of the form `L@D.T` with the
non-empty runs of non-white-space characters `a@b`, `c` and `d`, and
`validateEmail` marks it invalid. -/
theorem validateEmail_rejects_second_at :
    ("a@b@c.d".toList = "a@b".toList ++ '@' :: ("c".toList ++ '.' :: "d".toList) ∧
      "a@b".toList ≠ [] ∧ "c".toList ≠ [] ∧ "d".toList ≠ [] ∧
      (∀ c ∈ "a@b".toList ++ "c".toList ++ "d".toList, isWhiteSpace c = false)) ∧
    "a@b@c.d".toList ≠ [] ∧
    (validateEmail (emailInput "a@b@c.d".toList)).map (fun o => decide o.invalid) = some true := by
  decide

/-- The shape of the strings the email pattern accepts. -/
theorem emailPattern_accepts_iff (v : JsString) :
    emailPattern.test v = true ↔
      (∀ c ∈ v, isWhiteSpace c = false) ∧ v.count '@' = 1 ∧
      ∃ l r, v = l ++ '@' :: r ∧ l ≠ [] ∧ ∃ d t, r = d ++ '.' :: t ∧ d ≠ [] ∧ t ≠ [] := by
  rw [emailPattern_test_iff]
  constructor
  · rintro ⟨l, d, t, hl, hd, ht, rfl⟩
    have hl0 : l.count '@' = 0 :=
      List.count_eq_zero.2 (fun hm => ((notSpaceNotAt_iff _).1 (hl.2 _ hm)).2 rfl)
    have hd0 : d.count '@' = 0 :=
      List.count_eq_zero.2 (fun hm => ((notSpaceNotAt_iff _).1 (hd.2 _ hm)).2 rfl)
    have ht0 : t.count '@' = 0 :=
      List.count_eq_zero.2 (fun hm => ((notSpaceNotAt_iff _).1 (ht.2 _ hm)).2 rfl)
    refine ⟨?_, ?_, l, d ++ '.' :: t, rfl, hl.1, d, t, rfl, hd.1, ht.1⟩
    · intro c hc
      simp only [List.mem_append, List.mem_cons] at hc
      rcases hc with hc | rfl | hc | rfl | hc
      · exact ((notSpaceNotAt_iff _).1 (hl.2 _ hc)).1
      · decide
      · exact ((notSpaceNotAt_iff _).1 (hd.2 _ hc)).1
      · decide
      · exact ((notSpaceNotAt_iff _).1 (ht.2 _ hc)).1
    · have hdot : ('.' == '@') = false := by decide
      simp [List.count_append, List.count_cons, hl0, hd0, ht0, hdot]
  · rintro ⟨hws, hcount, l, r, rfl, hl, d, t, rfl, hd, ht⟩
    have hdot : ('.' == '@') = false := by decide
    simp only [List.count_append, List.count_cons, hdot, beq_self_eq_true, if_true,
      Bool.false_eq_true, if_false] at hcount
    have hl0 : '@' ∉ l := List.count_eq_zero.1 (by omega)
    have hd0 : '@' ∉ d := List.count_eq_zero.1 (by omega)
    have ht0 : '@' ∉ t := List.count_eq_zero.1 (by omega)
    refine ⟨l, d, t, ⟨hl, ?_⟩, ⟨hd, ?_⟩, ⟨ht, ?_⟩, rfl⟩
    · intro c hc
      exact (notSpaceNotAt_iff c).2 ⟨hws c (by simp [hc]), fun h => hl0 (h ▸ hc)⟩
    · intro c hc
      exact (notSpaceNotAt_iff c).2 ⟨hws c (by simp [hc]), fun h => hd0 (h ▸ hc)⟩
    · intro c hc
      exact (notSpaceNotAt_iff c).2 ⟨hws c (by simp [hc]), fun h => ht0 (h ▸ hc)⟩

/-- C10.  The pattern of `validateEmail` matches a string exactly when the
string contains no white space, contains exactly one `@`, has at least one
character before it, and the part after it contains a `.` that is neither
its first nor its last character.  Hence `validateEmail` marks every
non-empty value that has two or more `@` or any white space. -/
theorem emailPattern_shape (v : JsString) :
    (emailPattern.test v = true ↔
      (∀ c ∈ v, isWhiteSpace c = false) ∧ v.count '@' = 1 ∧
      ∃ l r, v = l ++ '@' :: r ∧ l ≠ [] ∧ ∃ d t, r = d ++ '.' :: t ∧ d ≠ [] ∧ t ≠ []) ∧
    (∀ (input : EmailField) (p : List Node × List Node), input.parent = some p →
      input.value = v → v ≠ [] → (2 ≤ v.count '@' ∨ ∃ c ∈ v, isWhiteSpace c = true) →
      ∃ out, validateEmail input = some out ∧ out.invalid) := by
  refine ⟨emailPattern_accepts_iff v, ?_⟩
  intro input p hp hv hne hbad
  obtain ⟨out, h1, _, h3⟩ := validateEmail_mark input p hp
  refine ⟨out, h1, h3.2 ⟨by rw [hv]; exact hne, ?_⟩⟩
  rw [hv]
  cases htest : emailPattern.test v with
  | false => rfl
  | true =>
    exfalso
    obtain ⟨hws, hcount, _⟩ := (emailPattern_accepts_iff v).1 htest
    rcases hbad with hbad | ⟨c, hc, hcw⟩
    · omega
    · rw [hws c hc] at hcw
      exact Bool.false_ne_true hcw

theorem emailPattern_shape_witness :
    (emailInput "a b@c@d.e".toList).parent = some ([], []) ∧
    "a b@c@d.e".toList ≠ [] ∧
    (2 ≤ "a b@c@d.e".toList.count '@' ∨ ∃ c ∈ "a b@c@d.e".toList, isWhiteSpace c = true) ∧
    ∃ out, validateEmail (emailInput "a b@c@d.e".toList) = some out ∧ out.invalid :=
  ⟨rfl, by decide, Or.inl (by decide),
    (emailPattern_shape "a b@c@d.e".toList).2 (emailInput "a b@c@d.e".toList) ([], []) rfl rfl
      (by decide) (Or.inl (by decide))⟩

theorem queryFeedback_none (before after : List Node) (cl : List String)
    (hb : NoFeedback before) (ha : NoFeedback after) (hc : isFeedback cl = false) :
    queryFeedback before cl after = none := by
  unfold queryFeedback
  have h1 : before.any (fun n => isFeedback n.classList) = false := by
    rw [List.any_eq_false]
    intro n hn
    simp [hb n hn]
  have h2 : after.any (fun n => isFeedback n.classList) = false := by
    rw [List.any_eq_false]
    intro n hn
    simp [ha n hn]
  simp [h1, h2, hc]

theorem queryFeedback_after (before after : List Node) (cl : List String)
    (hb : NoFeedback before) (hc : isFeedback cl = false) :
    queryFeedback before cl (after ++ [feedbackDiv]) = some Hit.after := by
  unfold queryFeedback
  have h1 : before.any (fun n => isFeedback n.classList) = false := by
    rw [List.any_eq_false]
    intro n hn
    simp [hb n hn]
  have h2 : (after ++ [feedbackDiv]).any (fun n => isFeedback n.classList) = true := by
    rw [List.any_eq_true]
    exact ⟨feedbackDiv, by simp, by decide⟩
  simp [h1, h2, hc]

theorem eraseP_feedbackDiv (after : List Node) (ha : NoFeedback after) :
    (after ++ [feedbackDiv]).eraseP (fun n => isFeedback n.classList) = after := by
  rw [List.eraseP_append_right]
  · have : [feedbackDiv].eraseP (fun n => isFeedback n.classList) = [] := by decide
    rw [this, List.append_nil]
  · intro n hn
    simp [ha n hn]

theorem countP_noFeedback (l : List Node) (h : NoFeedback l) :
    l.countP (fun n => isFeedback n.classList) = 0 := by
  rw [List.countP_eq_zero]
  intro n hn
  simp [h n hn]

/-- One blur from a state with at most one feedback element, whatever the
mark. -/
theorem validateEmail_step (before after : List Node) (f : EmailField) (v : JsString)
    (hb : NoFeedback before) (ha : NoFeedback after) (hc : isFeedback f.classList = false)
    (hp : f.parent = some (before, after) ∨ f.parent = some (before, after ++ [feedbackDiv])) :
    ∃ out, validateEmail { f with value := v } = some out ∧ out.value = v ∧
      Settled before after out ∧
      (out.invalid ↔ v ≠ [] ∧ emailPattern.test v = false) := by
  have hin : "is-invalid" ∈ classListAdd f.classList "is-invalid" :=
    (mem_classListAdd _ _ _).2 (Or.inr rfl)
  have hout : "is-invalid" ∉ classListRemove f.classList "is-invalid" :=
    fun hm => ((mem_classListRemove _ _ _).1 hm).2 rfl
  have hfa : isFeedback (classListAdd f.classList "is-invalid") = false := by
    rw [isFeedback_classListAdd]; exact hc
  have hfr : isFeedback (classListRemove f.classList "is-invalid") = false := by
    rw [isFeedback_classListRemove]; exact hc
  unfold validateEmail
  by_cases hv : v ≠ [] ∧ emailPattern.test v = false
  · rcases hp with hp | hp
    · simp only [hp, hv, and_self, if_true, ne_eq, not_false_eq_true,
        queryFeedback_none before after f.classList hb ha hc]
      exact ⟨_, rfl, rfl, ⟨hfa, Or.inr ⟨rfl, hin⟩⟩, by simpa [EmailField.invalid] using hin⟩
    · simp only [hp, hv, and_self, if_true, ne_eq, not_false_eq_true,
        queryFeedback_after before after f.classList hb hc]
      exact ⟨_, rfl, rfl, ⟨hfa, Or.inr ⟨rfl, hin⟩⟩, by simpa [EmailField.invalid] using hin⟩
  · rcases hp with hp | hp
    · simp only [hp, hv, if_false, queryFeedback_none before after f.classList hb ha hc]
      exact ⟨_, rfl, rfl, ⟨hfr, Or.inl ⟨rfl, hout⟩⟩, by simpa [EmailField.invalid] using hout⟩
    · simp only [hp, hv, if_false, queryFeedback_after before after f.classList hb hc,
        eraseP_feedbackDiv after ha]
      exact ⟨_, rfl, rfl, ⟨hfr, Or.inl ⟨rfl, hout⟩⟩, by simpa [EmailField.invalid] using hout⟩

theorem settled_parent (before after : List Node) (f : EmailField) (h : Settled before after f) :
    f.parent = some (before, after) ∨ f.parent = some (before, after ++ [feedbackDiv]) := by
  rcases h.2 with h | h
  · exact Or.inl h.1
  · exact Or.inr h.1

theorem settled_count (before after : List Node) (f : EmailField)
    (hb : NoFeedback before) (ha : NoFeedback after) (h : Settled before after f) :
    feedbackCount f = if f.invalid then 1 else 0 := by
  have hfc : ([feedbackDiv].countP fun n => isFeedback n.classList) = 1 := by decide
  unfold feedbackCount
  rcases h.2 with ⟨hp, hi⟩ | ⟨hp, hi⟩
  · simp [hp, hi, h.1, countP_noFeedback before hb, countP_noFeedback after ha]
  · simp only [hp, hi, h.1, countP_noFeedback before hb, List.countP_append,
      countP_noFeedback after ha, hfc, if_true]
    simp

theorem blurs_step (before after : List Node) (hb : NoFeedback before) (ha : NoFeedback after)
    (vs : List JsString) (v : JsString) (f : EmailField) (hc : isFeedback f.classList = false)
    (hp : f.parent = some (before, after) ∨ f.parent = some (before, after ++ [feedbackDiv])) :
    ∃ out, blurs (vs ++ [v]) f = some out ∧ out.value = v ∧ Settled before after out ∧
      (out.invalid ↔ v ≠ [] ∧ emailPattern.test v = false) := by
  induction vs generalizing f with
  | nil =>
    obtain ⟨out, h1, h2, h3, h4⟩ := validateEmail_step before after f v hb ha hc hp
    exact ⟨out, by simp [blurs, h1], h2, h3, h4⟩
  | cons w ws ih =>
    obtain ⟨mid, h1, _, h3, _⟩ := validateEmail_step before after f w hb ha hc hp
    obtain ⟨out, k1, k2, k3, k4⟩ := ih mid h3.1 (settled_parent before after mid h3)
    exact ⟨out, by simp [blurs, h1, k1], k2, k3, k4⟩

/-- C5.  Take an attached email input whose parent holds no `.email-feedback`
element, and any sequence of calls of `validateEmail` on it with arbitrary
values.  After each call (the one with value `v`, after any earlier calls
`vs`), when `v` is not empty and fails the pattern the parent holds exactly
one `.email-feedback` element and the input carries `is-invalid`; otherwise
the parent holds none and the input does not carry `is-invalid`. -/
theorem validateEmail_feedback_count (input : EmailField) (before after : List Node)
    (hp : input.parent = some (before, after)) (h0 : feedbackCount input = 0)
    (vs : List JsString) (v : JsString) :
    ∃ out, blurs (vs ++ [v]) input = some out ∧ out.value = v ∧
      (v ≠ [] ∧ emailPattern.test v = false → feedbackCount out = 1 ∧ out.invalid) ∧
      (¬ (v ≠ [] ∧ emailPattern.test v = false) → feedbackCount out = 0 ∧ ¬ out.invalid) := by
  unfold feedbackCount at h0
  simp only [hp] at h0
  have hb : NoFeedback before := by
    intro n hn
    have : before.countP (fun n => isFeedback n.classList) = 0 := by omega
    rw [List.countP_eq_zero] at this
    simpa using this n hn
  have ha : NoFeedback after := by
    intro n hn
    have : after.countP (fun n => isFeedback n.classList) = 0 := by omega
    rw [List.countP_eq_zero] at this
    simpa using this n hn
  have hc : isFeedback input.classList = false := by
    cases h : isFeedback input.classList with
    | false => rfl
    | true => simp [h] at h0
  obtain ⟨out, h1, h2, h3, h4⟩ := blurs_step before after hb ha vs v input hc (Or.inl hp)
  have hcount := settled_count before after out hb ha h3
  refine ⟨out, h1, h2, ?_, ?_⟩
  · intro hv
    have hi := h4.2 hv
    exact ⟨by simpa [hi] using hcount, hi⟩
  · intro hv
    have hi : ¬ out.invalid := fun h => hv (h4.1 h)
    exact ⟨by simpa [hi] using hcount, hi⟩

theorem validateEmail_feedback_count_witness :
    labelledInput.parent =
      some ([⟨["form-label"], "Email".toList⟩], [⟨["form-text"], "Work address".toList⟩]) ∧
    feedbackCount labelledInput = 0 ∧
    (∃ out, blurs (["foo".toList] ++ ["foo".toList]) labelledInput = some out ∧
      out.value = "foo".toList ∧
      ("foo".toList ≠ [] ∧ emailPattern.test "foo".toList = false →
        feedbackCount out = 1 ∧ out.invalid) ∧
      (¬ ("foo".toList ≠ [] ∧ emailPattern.test "foo".toList = false) →
        feedbackCount out = 0 ∧ ¬ out.invalid)) ∧
    (blurs ["foo".toList, "foo".toList] labelledInput).map feedbackCount = some 1 ∧
    (blurs ["foo".toList, "a@b.co".toList] labelledInput).map feedbackCount = some 0 :=
  ⟨rfl, by decide,
    validateEmail_feedback_count labelledInput _ _ rfl (by decide) ["foo".toList] "foo".toList,
    by decide, by decide⟩

/-! ## Loading state -/

/-- C9, as the code has it.  For every element and message, `showLoading`
assigns the spinner markup followed by the message (`Loading...` when none is
given) to `innerHTML`, so that the children become what that markup parses to,
and disables the element; the returned callback, called next, assigns the
markup read from `innerHTML` before `showLoading` back to `innerHTML` and sets
the disabled flag to false.  The element is then as it was before exactly
when the saved markup parses back to the children it had and it was enabled
before. -/
theorem showLoading_restore (C : Type) (dom : InnerHTML C) (element : LoadingElement C)
    (message : Option JsString) :
    (showLoading dom element message).1 =
      { children := dom.set (spinner ++ message.getD "Loading...".toList), disabled := true } ∧
    ((showLoading dom element message).2 (showLoading dom element message).1).children =
      dom.set (dom.get element.children) ∧
    ((showLoading dom element message).2 (showLoading dom element message).1).disabled = false ∧
    ((showLoading dom element message).2 (showLoading dom element message).1 = element ↔
      dom.set (dom.get element.children) = element.children ∧ element.disabled = false) := by
  refine ⟨rfl, rfl, rfl, ?_⟩
  cases element with
  | mk children dis =>
    simp only [showLoading, LoadingElement.mk.injEq]
    constructor
    · rintro ⟨h1, h2⟩
      exact ⟨h1, h2.symm⟩
    · rintro ⟨h1, h2⟩
      exact ⟨h1, h2.symm⟩

/-- C9 fails as stated.  For an element that is disabled before
`showLoading` is called, the restore callback leaves it enabled. -/
theorem showLoading_enables_disabled_element :
    (⟨"Send".toList, true⟩ : LoadingElement JsString).disabled = true ∧
    ((showLoading serializedMarkup ⟨"Send".toList, true⟩ (some "Sending".toList)).2
      (showLoading serializedMarkup ⟨"Send".toList, true⟩ (some "Sending".toList)).1).disabled =
      false ∧
    (showLoading serializedMarkup ⟨"Send".toList, true⟩ (some "Sending".toList)).2
      (showLoading serializedMarkup ⟨"Send".toList, true⟩ (some "Sending".toList)).1 ≠
      ⟨"Send".toList, true⟩ := by
  decide

/-- C8 at its failing input.  One submit event leaves the button with its
label `Save` and enabled once the fallback timer has fired.  Two submit
events 5000 ms apart leave it, once both fallback timers have fired, enabled
with the label of the loading state: the second event has stored that label
as the original. -/
theorem submit_twice_keeps_loading_label :
    (submits [0] saveForm).settle.submitBtn = some ⟨"Save".toList, false⟩ ∧
    (submits [0, 5000] saveForm).settle.timers = [] ∧
    (submits [0, 5000] saveForm).settle.submitBtn =
      some ⟨spinner ++ "Please wait...".toList, false⟩ ∧
    spinner ++ "Please wait...".toList ≠ "Save".toList := by
  decide

/-! ## `debounce` -/

theorem armed_first {α : Type} (wait t : Nat) (a : α) :
    Armed wait (calls wait [(t, a)] (Debounced.init α)) t a := by
  refine ⟨rfl, 0, rfl, rfl⟩

theorem armed_next {α : Type} (wait : Nat) (d : Debounced α) (t : Nat) (a : α) (t2 : Nat)
    (a2 : α) (h : Armed wait d t a) (hlt : t2 < t + wait) :
    Armed wait (executedFunction wait t2 a2 (Debounced.runTimers (some t2) d.pending.length d))
      t2 a2 := by
  obtain ⟨hinv, id, hto, hpend⟩ := h
  have hrun : Debounced.runTimers (some t2) d.pending.length d = d := by
    rw [hpend]
    simp only [List.length_singleton, Debounced.runTimers, hpend, earliest, withinLimit]
    have : ¬ (t + wait ≤ t2) := by omega
    simp [this]
  rw [hrun]
  refine ⟨hinv, d.nextId, rfl, ?_⟩
  simp [executedFunction, hto, hpend, clearTimeout]

theorem armed_calls {α : Type} (wait : Nat) (cs : List (Nat × α)) (last : Nat × α)
    (d : Debounced α) (t : Nat) (a : α) (h : Armed wait d t a)
    (hb : isBurst wait ((t, a) :: (cs ++ [last]))) :
    Armed wait (calls wait (cs ++ [last]) d) last.1 last.2 := by
  induction cs generalizing d t a with
  | nil =>
    obtain ⟨t2, a2⟩ := last
    simp only [List.nil_append, isBurst] at hb
    exact armed_next wait d t a t2 a2 h hb.2.1
  | cons c cs ih =>
    obtain ⟨t2, a2⟩ := c
    simp only [List.cons_append, isBurst] at hb
    exact ih _ t2 a2 (armed_next wait d t a t2 a2 h hb.2.1) hb.2.2

theorem settle_armed {α : Type} (wait : Nat) (d : Debounced α) (t : Nat) (a : α)
    (h : Armed wait d t a) : d.settle.invoked = [(t + wait, a)] := by
  obtain ⟨hinv, id, hto, hpend⟩ := h
  unfold Debounced.settle
  rw [hpend]
  simp [Debounced.runTimers, hpend, earliest, withinLimit, later, hinv]

/-- C6.  For every wait and every burst of calls of the wrapper returned by
`debounce(func, wait)`, each call following the previous one by less than
`wait`, `func` has not been invoked when the last call returns and, once the
pending timer has fired, it has been invoked exactly once, `wait` after the
last call, with the arguments of the last call. -/
theorem debounce_burst_fires_once (α : Type) (wait : Nat) (cs : List (Nat × α))
    (last : Nat × α) (hb : isBurst wait (cs ++ [last])) :
    (calls wait (cs ++ [last]) (Debounced.init α)).invoked = [] ∧
    (calls wait (cs ++ [last]) (Debounced.init α)).settle.invoked =
      [(last.1 + wait, last.2)] := by
  have harmed : Armed wait (calls wait (cs ++ [last]) (Debounced.init α)) last.1 last.2 := by
    cases cs with
    | nil => exact armed_first wait last.1 last.2
    | cons c cs =>
      obtain ⟨t, a⟩ := c
      exact armed_calls wait cs last _ t a (armed_first wait t a) hb
  exact ⟨harmed.1, settle_armed wait _ _ _ harmed⟩

theorem debounce_burst_fires_once_witness :
    isBurst 100 ([(0, 'a'), (10, 'b'), (20, 'c'), (30, 'd')] ++ [(50, 'e')]) ∧
    (calls 100 ([(0, 'a'), (10, 'b'), (20, 'c'), (30, 'd')] ++ [(50, 'e')])
      (Debounced.init Char)).settle.invoked = [(150, 'e')] :=
  ⟨by simp [isBurst],
    (debounce_burst_fires_once Char 100 [(0, 'a'), (10, 'b'), (20, 'c'), (30, 'd')] (50, 'e')
      (by simp [isBurst])).2⟩

/-! ## Rounding to a double -/

theorem excessBits_spec (fuel n : Nat) (h : n < 2 ^ 53 * 2 ^ fuel) :
    n / 2 ^ excessBits fuel n < 2 ^ 53 ∧
      (0 < excessBits fuel n → 2 ^ 52 ≤ n / 2 ^ excessBits fuel n) := by
  induction fuel generalizing n with
  | zero =>
    simp only [excessBits, pow_zero, Nat.div_one, lt_self_iff_false, false_implies, and_true]
    simpa using h
  | succ fuel ih =>
    unfold excessBits
    split
    · rename_i hlt
      simp only [pow_zero, Nat.div_one, lt_self_iff_false, false_implies, and_true]
      exact hlt
    · rename_i hge
      have hhalf : n / 2 < 2 ^ 53 * 2 ^ fuel := by
        rw [pow_succ] at h
        omega
      obtain ⟨h1, h2⟩ := ih (n / 2) hhalf
      have hdiv : n / 2 ^ (1 + excessBits fuel (n / 2)) = n / 2 / 2 ^ excessBits fuel (n / 2) := by
        rw [pow_add, pow_one, Nat.div_div_eq_div_mul]
      rw [hdiv]
      refine ⟨h1, fun _ => ?_⟩
      by_cases he : 0 < excessBits fuel (n / 2)
      · exact h2 he
      · have he0 : excessBits fuel (n / 2) = 0 := by omega
        rw [he0, pow_zero, Nat.div_one]
        omega

/-- The two ways `round53` goes: the value fits and is kept, or it is cut to
a significand `q` with `2^52 ≤ q < 2^53` and goes down or up to a neighbour,
down only from at most half a step above, up only from at least half. -/
theorem round53_cases (n : Nat) (s : Bool) :
    (n < 2 ^ 53 ∧ round53 n s = n) ∨
    ∃ p q r, n = 2 * (q * p) + r ∧ r < 2 * p ∧ 0 < p ∧ 2 ^ 52 ≤ q ∧ q < 2 ^ 53 ∧
      (∃ j, p = 2 ^ j) ∧
      ((round53 n s = 2 * (q * p) ∧ r ≤ p) ∨ (round53 n s = 2 * (q * p + p) ∧ p ≤ r)) := by
  have hfuel : n < 2 ^ 53 * 2 ^ n := by
    have h1 : n < 2 ^ n := Nat.lt_two_pow n
    have h2 : 2 ^ n ≤ 2 ^ 53 * 2 ^ n := Nat.le_mul_of_pos_left _ (by positivity)
    omega
  obtain ⟨h1, h2⟩ := excessBits_spec n n hfuel
  by_cases he : excessBits n n = 0
  · left
    rw [he, pow_zero, Nat.div_one] at h1
    exact ⟨h1, by simp [round53, he]⟩
  · right
    have hpos : 0 < excessBits n n := Nat.pos_of_ne_zero he
    obtain ⟨j, hj⟩ : ∃ j, excessBits n n = j + 1 := ⟨excessBits n n - 1, by omega⟩
    have hround : round53 n s =
        if n % 2 ^ (j + 1) < 2 ^ j ∨ (n % 2 ^ (j + 1) = 2 ^ j ∧ s = false ∧
          n / 2 ^ (j + 1) % 2 = 0) then n / 2 ^ (j + 1) * 2 ^ (j + 1)
        else (n / 2 ^ (j + 1) + 1) * 2 ^ (j + 1) := by
      simp only [round53, hj, Nat.add_one_ne_zero, if_false, Nat.add_sub_cancel]
    rw [hj] at h1 h2
    have h2 := h2 (Nat.succ_pos j)
    have hpow : 2 ^ (j + 1) = 2 * 2 ^ j := by rw [pow_succ, Nat.mul_comm]
    have hpp : 0 < 2 ^ j := by positivity
    have hdm := Nat.div_add_mod n (2 ^ (j + 1))
    have hmod : n % 2 ^ (j + 1) < 2 ^ (j + 1) := Nat.mod_lt _ (by positivity)
    generalize n / 2 ^ (j + 1) = q at *
    generalize n % 2 ^ (j + 1) = r at *
    rw [hpow] at hdm hmod hround
    generalize hp2 : 2 ^ j = p at *
    refine ⟨p, q, r, ?_, hmod, hpp, h2, h1, ⟨j, hp2.symm⟩, ?_⟩
    · rw [← hdm]; ring
    · by_cases hc : r < p ∨ (r = p ∧ s = false ∧ q % 2 = 0)
      · left
        rw [hround, if_pos hc]
        refine ⟨by ring, ?_⟩
        rcases hc with hc | hc
        · omega
        · omega
      · right
        rw [hround, if_neg hc]
        refine ⟨by ring, ?_⟩
        by_contra hlt
        exact hc (Or.inl (by omega))

/-- Rounding loses at most one part in `2^53`. -/
theorem round53_lower (n : Nat) (s : Bool) : (2 ^ 53 - 1) * n ≤ 2 ^ 53 * round53 n s := by
  rcases round53_cases n s with ⟨_, h⟩ | ⟨p, q, r, hn, hr, hp, hq1, hq2, _, h⟩
  · rw [h]
    exact Nat.mul_le_mul_right _ (by norm_num)
  · have hx : 2 ^ 52 * p ≤ q * p := Nat.mul_le_mul_right _ hq1
    generalize q * p = x at *
    rcases h with ⟨h, hle⟩ | ⟨h, hle⟩
    · rw [h, hn]
      norm_num at hx ⊢
      omega
    · rw [h, hn]
      norm_num at hx ⊢
      omega

/-- Rounding gains at most one part in `2^53`. -/
theorem round53_upper (n : Nat) (s : Bool) : 2 ^ 53 * round53 n s ≤ (2 ^ 53 + 1) * n := by
  rcases round53_cases n s with ⟨_, h⟩ | ⟨p, q, r, hn, hr, hp, hq1, hq2, _, h⟩
  · rw [h]
    exact Nat.mul_le_mul_right _ (by norm_num)
  · have hx : 2 ^ 52 * p ≤ q * p := Nat.mul_le_mul_right _ hq1
    generalize q * p = x at *
    rcases h with ⟨h, hle⟩ | ⟨h, hle⟩
    · rw [h, hn]
      norm_num at hx ⊢
      omega
    · rw [h, hn]
      norm_num at hx ⊢
      omega

theorem round53_representable (n : Nat) (s : Bool) : Representable (round53 n s) := by
  rcases round53_cases n s with ⟨hlt, h⟩ | ⟨p, q, r, hn, hr, hp, hq1, hq2, ⟨j, rfl⟩, h⟩
  · rw [h]
    exact ⟨n, 0, hlt, by simp⟩
  · rcases h with ⟨h, _⟩ | ⟨h, _⟩
    · exact ⟨q, j + 1, hq2, by rw [h, pow_succ]; ring⟩
    · by_cases hq : q + 1 < 2 ^ 53
      · exact ⟨q + 1, j + 1, hq, by rw [h, pow_succ]; ring⟩
      · have hq' : q = 2 ^ 53 - 1 := by omega
        refine ⟨2 ^ 52, j + 2, by norm_num, ?_⟩
        rw [h, hq', pow_succ, pow_succ]
        norm_num
        ring

/-- A double below the exact value is below the rounded value. -/
theorem le_round53 (m n : Nat) (s : Bool) (hm : Representable m) (hle : m ≤ n) :
    m ≤ round53 n s := by
  rcases round53_cases n s with ⟨_, h⟩ | ⟨p, q, r, hn, hr, hp, hq1, hq2, ⟨j, rfl⟩, h⟩
  · rw [h]; exact hle
  · have hdown : m ≤ 2 * (q * 2 ^ j) := by
      obtain ⟨k, i, hk, rfl⟩ := hm
      by_cases hij : i ≤ j
      · have h1 : 2 ^ i ≤ 2 ^ j := Nat.pow_le_pow_right (by norm_num) hij
        have h2 : k * 2 ^ i ≤ k * 2 ^ j := Nat.mul_le_mul_left _ h1
        have h3 : k * 2 ^ j ≤ (2 ^ 53 - 1) * 2 ^ j := Nat.mul_le_mul_right _ (by omega)
        have h4 : 2 ^ 52 * 2 ^ j ≤ q * 2 ^ j := Nat.mul_le_mul_right _ hq1
        generalize q * 2 ^ j = x at *
        generalize k * 2 ^ j = y at *
        generalize 2 ^ j = z at *
        norm_num at h3 h4
        omega
      · obtain ⟨d, hd⟩ : ∃ d, i = j + 1 + d := ⟨i - (j + 1), by omega⟩
        have hpow : k * 2 ^ i = 2 * (k * 2 ^ d * 2 ^ j) := by
          rw [hd, pow_add, pow_succ]; ring
        rw [hpow] at hle ⊢
        have hlt : k * 2 ^ d * 2 ^ j < (q + 1) * 2 ^ j := by
          have : (q + 1) * 2 ^ j = q * 2 ^ j + 2 ^ j := by ring
          omega
        have hc : k * 2 ^ d < q + 1 := Nat.lt_of_mul_lt_mul_right hlt
        have : k * 2 ^ d * 2 ^ j ≤ q * 2 ^ j := Nat.mul_le_mul_right _ (by omega)
        omega
    rcases h with ⟨h, _⟩ | ⟨h, _⟩
    · rw [h]; exact hdown
    · rw [h]; omega

/-- Rounding keeps a value a double holds exactly. -/
theorem round53_exact (n : Nat) (s : Bool) (hn : Representable n) : round53 n s = n := by
  rcases round53_cases n s with ⟨_, h⟩ | ⟨p, q, r, hn', hr, hp, hq1, hq2, ⟨j, rfl⟩, h⟩
  · exact h
  · have hr0 : r = 0 := by
      obtain ⟨k, i, hk, rfl⟩ := hn
      by_cases hij : i ≤ j
      · exfalso
        have h1 : 2 ^ i ≤ 2 ^ j := Nat.pow_le_pow_right (by norm_num) hij
        have h2 : k * 2 ^ i ≤ k * 2 ^ j := Nat.mul_le_mul_left _ h1
        have h3 : k * 2 ^ j ≤ (2 ^ 53 - 1) * 2 ^ j := Nat.mul_le_mul_right _ (by omega)
        have h4 : 2 ^ 52 * 2 ^ j ≤ q * 2 ^ j := Nat.mul_le_mul_right _ hq1
        generalize q * 2 ^ j = x at *
        generalize k * 2 ^ j = y at *
        generalize k * 2 ^ i = w at *
        generalize 2 ^ j = z at *
        norm_num at h3 h4
        omega
      · obtain ⟨d, hd⟩ : ∃ d, i = j + 1 + d := ⟨i - (j + 1), by omega⟩
        have hpow : k * 2 ^ i = 2 * (k * 2 ^ d * 2 ^ j) := by
          rw [hd, pow_add, pow_succ]; ring
        rw [hpow] at hn'
        by_cases hc : k * 2 ^ d ≤ q
        · have : k * 2 ^ d * 2 ^ j ≤ q * 2 ^ j := Nat.mul_le_mul_right _ hc
          omega
        · have h5 : (q + 1) * 2 ^ j ≤ k * 2 ^ d * 2 ^ j := Nat.mul_le_mul_right _ (by omega)
          have : (q + 1) * 2 ^ j = q * 2 ^ j + 2 ^ j := by ring
          omega
    rcases h with ⟨h, _⟩ | ⟨h, hpr⟩
    · omega
    · omega

theorem representable_zero : Representable 0 := ⟨0, 0, by norm_num, by simp⟩

theorem representable_mul_scale (m : Nat) (h : m < 2 ^ 53) : Representable (m * scale) :=
  ⟨m, 64, h, rfl⟩

theorem ofNat_exact (m : Nat) (h : m < 2 ^ 53) : Double.ofNat m = m * scale :=
  round53_exact _ _ (representable_mul_scale m h)

theorem floor_mul_scale (m : Nat) : Double.floor (m * scale) = m := by
  unfold Double.floor scale
  exact Nat.mul_div_cancel _ (by positivity)

/-! ## Counter animation -/

theorem counterTarget_eq (t : Nat) (h : t < 2 ^ 53) : counterTarget t = t * scale :=
  ofNat_exact t h

theorem counterIncrement_eq (t : Nat) :
    counterIncrement t =
      round53 (counterTarget t / 20) (decide (counterTarget t * scale % (20 * scale) ≠ 0)) := by
  unfold counterIncrement Double.div
  rw [ofNat_exact 20 (by norm_num)]
  rw [Nat.mul_div_mul_right _ _ (by unfold scale; positivity)]

theorem accumulate_representable (inc k : Nat) : Representable (accumulate inc k) := by
  cases k with
  | zero => exact representable_zero
  | succ k => exact round53_representable _ _

theorem accumulate_le_succ (inc k : Nat) : accumulate inc k ≤ accumulate inc (k + 1) :=
  le_round53 _ _ _ (accumulate_representable inc k) (Nat.le_add_right _ _)

theorem accumulate_mono (inc : Nat) {j k : Nat} (h : j ≤ k) :
    accumulate inc j ≤ accumulate inc k := by
  induction k with
  | zero =>
    have : j = 0 := by omega
    rw [this]
  | succ k ih =>
    by_cases hjk : j ≤ k
    · exact Nat.le_trans (ih hjk) (accumulate_le_succ inc k)
    · have : j = k + 1 := by omega
      rw [this]

theorem animateCounter_succ (t k : Nat) :
    animateCounter t (k + 1) =
      if (animateCounter t k).running then
        tick (counterTarget t) (counterIncrement t) (animateCounter t k)
      else animateCounter t k := rfl

/-- While the timer is set, `current` is the plain sum of the increments and
is below the target. -/
theorem running_state (t k : Nat) (h : (animateCounter t k).running = true) :
    (animateCounter t k).current = accumulate (counterIncrement t) k ∧
    (animateCounter t k).ticks = k ∧
    (1 ≤ k → accumulate (counterIncrement t) k < counterTarget t ∧
      (animateCounter t k).shown = Double.floor (accumulate (counterIncrement t) k)) := by
  induction k with
  | zero => exact ⟨rfl, rfl, fun h => absurd h (by norm_num)⟩
  | succ k ih =>
    rw [animateCounter_succ] at h ⊢
    by_cases hr : (animateCounter t k).running = true
    · obtain ⟨h1, h2, _⟩ := ih hr
      simp only [hr, if_true] at h ⊢
      unfold tick at h ⊢
      simp only [h1, h2] at h ⊢
      by_cases hc : counterTarget t ≤ Double.add (accumulate (counterIncrement t) k)
          (counterIncrement t)
      · simp [hc] at h
      · simp only [hc, if_false]
        refine ⟨rfl, trivial, fun _ => ⟨?_, rfl⟩⟩
        simpa [accumulate] using hc
    · simp only [hr] at h
      simp at h
      exact absurd h hr

/-- Once the timer is cleared, `current` is the target and the element shows
its floor. -/
theorem stopped_state (t k : Nat) (h : (animateCounter t k).running = false) :
    (animateCounter t k).current = counterTarget t ∧
    (animateCounter t k).shown = Double.floor (counterTarget t) ∧
    1 ≤ (animateCounter t k).ticks ∧ (animateCounter t k).ticks ≤ k ∧
    counterTarget t ≤ accumulate (counterIncrement t) (animateCounter t k).ticks ∧
    (animateCounter t ((animateCounter t k).ticks - 1)).running = true := by
  induction k with
  | zero => simp [animateCounter] at h
  | succ k ih =>
    rw [animateCounter_succ] at h ⊢
    by_cases hr : (animateCounter t k).running = true
    · obtain ⟨h1, h2, _⟩ := running_state t k hr
      simp only [hr, if_true] at h ⊢
      unfold tick at h ⊢
      simp only [h1, h2] at h ⊢
      by_cases hc : counterTarget t ≤ Double.add (accumulate (counterIncrement t) k)
          (counterIncrement t)
      · rw [if_pos hc]
        refine ⟨rfl, rfl, ?_, ?_, ?_, ?_⟩
        · show 1 ≤ k + 1
          omega
        · show k + 1 ≤ k + 1
          omega
        · show counterTarget t ≤ accumulate (counterIncrement t) (k + 1)
          simpa [accumulate] using hc
        · show (animateCounter t (k + 1 - 1)).running = true
          simpa using hr
      · simp [hc] at h
    · have hr' : (animateCounter t k).running = false := by simpa using hr
      obtain ⟨h1, h2, h3, h4, h5, h6⟩ := ih hr'
      simp only [hr', Bool.false_eq_true, if_false]
      exact ⟨h1, h2, h3, by omega, h5, h6⟩

theorem running_of_succ (t k : Nat) (h : (animateCounter t (k + 1)).running = true) :
    (animateCounter t k).running = true := by
  rw [animateCounter_succ] at h
  by_cases hr : (animateCounter t k).running = true
  · exact hr
  · simp only [hr] at h
    simp at h
    exact absurd h hr

theorem stopped_of_reached (t k : Nat)
    (h : counterTarget t ≤ accumulate (counterIncrement t) (k + 1)) :
    (animateCounter t (k + 1)).running = false := by
  by_contra hr
  have hr' : (animateCounter t (k + 1)).running = true := by simpa using hr
  have := ((running_state t (k + 1) hr').2.2 (by omega)).1
  omega

theorem running_of_le (t : Nat) {j k : Nat} (hjk : j ≤ k)
    (h : (animateCounter t k).running = true) : (animateCounter t j).running = true := by
  induction k with
  | zero =>
    have : j = 0 := by omega
    rw [this]; exact h
  | succ k ih =>
    by_cases hj : j ≤ k
    · exact ih hj (running_of_succ t k h)
    · have : j = k + 1 := by omega
      rw [this]; exact h

theorem accumulate_lower (inc k : Nat) :
    (2 ^ 53 - 1) ^ k * (k * inc) ≤ (2 ^ 53) ^ k * accumulate inc k := by
  induction k with
  | zero => simp
  | succ k ih =>
    have hstep : (2 ^ 53 - 1) * (accumulate inc k + inc) ≤
        2 ^ 53 * accumulate inc (k + 1) := round53_lower _ _
    have hpow : (2 ^ 53 - 1) ^ k ≤ (2 ^ 53) ^ k := Nat.pow_le_pow_left (by norm_num) k
    calc (2 ^ 53 - 1) ^ (k + 1) * ((k + 1) * inc)
        = (2 ^ 53 - 1) * ((2 ^ 53 - 1) ^ k * (k * inc)) +
            (2 ^ 53 - 1) * ((2 ^ 53 - 1) ^ k * inc) := by ring
      _ ≤ (2 ^ 53 - 1) * ((2 ^ 53) ^ k * accumulate inc k) +
            (2 ^ 53 - 1) * ((2 ^ 53) ^ k * inc) := by
          apply Nat.add_le_add
          · exact Nat.mul_le_mul_left _ ih
          · exact Nat.mul_le_mul_left _ (Nat.mul_le_mul_right _ hpow)
      _ = (2 ^ 53) ^ k * ((2 ^ 53 - 1) * (accumulate inc k + inc)) := by ring
      _ ≤ (2 ^ 53) ^ k * (2 ^ 53 * accumulate inc (k + 1)) := Nat.mul_le_mul_left _ hstep
      _ = (2 ^ 53) ^ (k + 1) * accumulate inc (k + 1) := by ring

/-- Twenty-one additions of the increment reach the target. -/
theorem accumulate_reaches (t : Nat) (h1 : 1 ≤ t) (h2 : t < 2 ^ 53) :
    counterTarget t ≤ accumulate (counterIncrement t) 21 := by
  have hacc := accumulate_lower (counterIncrement t) 21
  have hinc : (2 ^ 53 - 1) * (counterTarget t / 20) ≤ 2 ^ 53 * counterIncrement t := by
    rw [counterIncrement_eq]
    exact round53_lower _ _
  have htgt : 2 ^ 64 ≤ counterTarget t := by
    rw [counterTarget_eq t h2]
    unfold scale
    exact Nat.le_mul_of_pos_left _ h1
  have hdiv : counterTarget t ≤ 20 * (counterTarget t / 20) + 19 := by omega
  generalize counterTarget t = g at *
  generalize counterIncrement t = i at *
  generalize accumulate i 21 = a at *
  generalize g / 20 = d at *
  by_contra hlt
  have hlt : a + 1 ≤ g := by omega
  have hnum : 41 * (2 ^ 53) ^ 22 ≤ 42 * (2 ^ 53 - 1) ^ 22 := by norm_num
  have hpos : 0 < (2 ^ 53) ^ 22 := by positivity
  have hBA : (2 ^ 53 - 1) ^ 22 ≤ (2 ^ 53) ^ 22 := Nat.pow_le_pow_left (by norm_num) 22
  -- 21 * B * (20 * d) ≤ 20 * A * a
  have hkey : 21 * (2 ^ 53 - 1) ^ 22 * (20 * d) ≤ 20 * (2 ^ 53) ^ 22 * a := by
    calc 21 * (2 ^ 53 - 1) ^ 22 * (20 * d)
        = 20 * 21 * (2 ^ 53 - 1) ^ 21 * ((2 ^ 53 - 1) * d) := by ring
      _ ≤ 20 * 21 * (2 ^ 53 - 1) ^ 21 * (2 ^ 53 * i) := Nat.mul_le_mul_left _ hinc
      _ = 20 * 2 ^ 53 * ((2 ^ 53 - 1) ^ 21 * (21 * i)) := by ring
      _ ≤ 20 * 2 ^ 53 * ((2 ^ 53) ^ 21 * a) := Nat.mul_le_mul_left _ hacc
      _ = 20 * (2 ^ 53) ^ 22 * a := by ring
  have e1 : 21 * (2 ^ 53 - 1) ^ 22 * g ≤ 21 * (2 ^ 53 - 1) ^ 22 * (20 * d + 19) :=
    Nat.mul_le_mul_left _ hdiv
  have e2 : (2 ^ 53) ^ 22 * (a + 1) ≤ (2 ^ 53) ^ 22 * g := Nat.mul_le_mul_left _ hlt
  have e3 : 41 * (2 ^ 53) ^ 22 * g ≤ 42 * (2 ^ 53 - 1) ^ 22 * g := Nat.mul_le_mul_right _ hnum
  have e4 : (2 ^ 53) ^ 22 * 2 ^ 64 ≤ (2 ^ 53) ^ 22 * g := Nat.mul_le_mul_left _ htgt
  generalize (2 ^ 53) ^ 22 = A at *
  generalize (2 ^ 53 - 1) ^ 22 = B at *
  have f1 : 21 * (B * g) ≤ 20 * (A * a) + 399 * B := by
    have : 21 * B * (20 * d + 19) = 21 * B * (20 * d) + 399 * B := by ring
    have : 21 * B * g = 21 * (B * g) := by ring
    have : 20 * A * a = 20 * (A * a) := by ring
    omega
  have f2 : A * a + A ≤ A * g := by
    have : A * (a + 1) = A * a + A := by ring
    omega
  have f3 : 41 * (A * g) ≤ 42 * (B * g) := by
    have : 41 * A * g = 41 * (A * g) := by ring
    have : 42 * B * g = 42 * (B * g) := by ring
    omega
  have f4 : 2 ^ 64 * A ≤ A * g := by
    have : A * 2 ^ 64 = 2 ^ 64 * A := by ring
    omega
  generalize A * g = x at *
  generalize B * g = y at *
  generalize A * a = z at *
  norm_num at f4
  omega

theorem accumulate_upper (inc k : Nat) :
    (2 ^ 53) ^ k * accumulate inc k ≤ (2 ^ 53 + 1) ^ k * (k * inc) := by
  induction k with
  | zero => simp [accumulate]
  | succ k ih =>
    have hstep : 2 ^ 53 * accumulate inc (k + 1) ≤
        (2 ^ 53 + 1) * (accumulate inc k + inc) := round53_upper _ _
    have hpow : (2 ^ 53) ^ k ≤ (2 ^ 53 + 1) ^ k := Nat.pow_le_pow_left (by norm_num) k
    calc (2 ^ 53) ^ (k + 1) * accumulate inc (k + 1)
        = (2 ^ 53) ^ k * (2 ^ 53 * accumulate inc (k + 1)) := by ring
      _ ≤ (2 ^ 53) ^ k * ((2 ^ 53 + 1) * (accumulate inc k + inc)) :=
          Nat.mul_le_mul_left _ hstep
      _ = (2 ^ 53 + 1) * ((2 ^ 53) ^ k * accumulate inc k) +
            (2 ^ 53 + 1) * ((2 ^ 53) ^ k * inc) := by ring
      _ ≤ (2 ^ 53 + 1) * ((2 ^ 53 + 1) ^ k * (k * inc)) +
            (2 ^ 53 + 1) * ((2 ^ 53 + 1) ^ k * inc) := by
          apply Nat.add_le_add
          · exact Nat.mul_le_mul_left _ ih
          · exact Nat.mul_le_mul_left _ (Nat.mul_le_mul_right _ hpow)
      _ = (2 ^ 53 + 1) ^ (k + 1) * ((k + 1) * inc) := by ring

/-- Up to twenty additions, the sum of the increments is within one part in
`2^48` of `k` times the twentieth of the target. -/
theorem accumulate_bounds (t k : Nat) (hk : k ≤ 20) :
    (2 ^ 48 - 1) * (k * (counterTarget t / 20)) ≤
        2 ^ 48 * accumulate (counterIncrement t) k ∧
    2 ^ 48 * accumulate (counterIncrement t) k ≤
        (2 ^ 48 + 1) * (k * (counterTarget t / 20)) := by
  obtain ⟨m, hm⟩ : ∃ m, 20 = k + m := ⟨20 - k, by omega⟩
  have hlo := accumulate_lower (counterIncrement t) k
  have hup := accumulate_upper (counterIncrement t) k
  have hinclo : (2 ^ 53 - 1) * (counterTarget t / 20) ≤ 2 ^ 53 * counterIncrement t := by
    rw [counterIncrement_eq]
    exact round53_lower _ _
  have hincup : 2 ^ 53 * counterIncrement t ≤ (2 ^ 53 + 1) * (counterTarget t / 20) := by
    rw [counterIncrement_eq]
    exact round53_upper _ _
  have hpm1 : (2 ^ 53 - 1) ^ m ≤ (2 ^ 53) ^ m := Nat.pow_le_pow_left (by norm_num) m
  have hpm2 : (2 ^ 53) ^ m ≤ (2 ^ 53 + 1) ^ m := Nat.pow_le_pow_left (by norm_num) m
  generalize counterTarget t / 20 = d at *
  generalize counterIncrement t = i at *
  generalize accumulate i k = a at *
  have hA : (2 ^ 53) ^ 21 = (2 ^ 53) ^ m * (2 ^ 53 * (2 ^ 53) ^ k) := by
    rw [show 21 = m + (1 + k) by omega, pow_add, pow_add, pow_one]
  have hB : (2 ^ 53 - 1) ^ 21 = (2 ^ 53 - 1) ^ m * ((2 ^ 53 - 1) * (2 ^ 53 - 1) ^ k) := by
    rw [show 21 = m + (1 + k) by omega, pow_add, pow_add, pow_one]
  have hC : (2 ^ 53 + 1) ^ 21 = (2 ^ 53 + 1) ^ m * ((2 ^ 53 + 1) * (2 ^ 53 + 1) ^ k) := by
    rw [show 21 = m + (1 + k) by omega, pow_add, pow_add, pow_one]
  have hlow : (2 ^ 53 - 1) ^ 21 * (k * d) ≤ (2 ^ 53) ^ 21 * a := by
    rw [hA, hB]
    calc (2 ^ 53 - 1) ^ m * ((2 ^ 53 - 1) * (2 ^ 53 - 1) ^ k) * (k * d)
        = (2 ^ 53 - 1) ^ m * ((2 ^ 53 - 1) ^ k * k * ((2 ^ 53 - 1) * d)) := by ring
      _ ≤ (2 ^ 53 - 1) ^ m * ((2 ^ 53 - 1) ^ k * k * (2 ^ 53 * i)) :=
          Nat.mul_le_mul_left _ (Nat.mul_le_mul_left _ hinclo)
      _ = (2 ^ 53 - 1) ^ m * (2 ^ 53 * ((2 ^ 53 - 1) ^ k * (k * i))) := by ring
      _ ≤ (2 ^ 53 - 1) ^ m * (2 ^ 53 * ((2 ^ 53) ^ k * a)) :=
          Nat.mul_le_mul_left _ (Nat.mul_le_mul_left _ hlo)
      _ ≤ (2 ^ 53) ^ m * (2 ^ 53 * ((2 ^ 53) ^ k * a)) := Nat.mul_le_mul_right _ hpm1
      _ = (2 ^ 53) ^ m * (2 ^ 53 * (2 ^ 53) ^ k) * a := by ring
  have hupp : (2 ^ 53) ^ 21 * a ≤ (2 ^ 53 + 1) ^ 21 * (k * d) := by
    rw [hA, hC]
    calc (2 ^ 53) ^ m * (2 ^ 53 * (2 ^ 53) ^ k) * a
        = (2 ^ 53) ^ m * (2 ^ 53 * ((2 ^ 53) ^ k * a)) := by ring
      _ ≤ (2 ^ 53) ^ m * (2 ^ 53 * ((2 ^ 53 + 1) ^ k * (k * i))) :=
          Nat.mul_le_mul_left _ (Nat.mul_le_mul_left _ hup)
      _ = (2 ^ 53) ^ m * ((2 ^ 53 + 1) ^ k * k * (2 ^ 53 * i)) := by ring
      _ ≤ (2 ^ 53) ^ m * ((2 ^ 53 + 1) ^ k * k * ((2 ^ 53 + 1) * d)) :=
          Nat.mul_le_mul_left _ (Nat.mul_le_mul_left _ hincup)
      _ ≤ (2 ^ 53 + 1) ^ m * ((2 ^ 53 + 1) ^ k * k * ((2 ^ 53 + 1) * d)) :=
          Nat.mul_le_mul_right _ hpm2
      _ = (2 ^ 53 + 1) ^ m * ((2 ^ 53 + 1) * (2 ^ 53 + 1) ^ k) * (k * d) := by ring
  have hnum1 : (2 ^ 48 - 1) * (2 ^ 53) ^ 21 ≤ 2 ^ 48 * (2 ^ 53 - 1) ^ 21 := by norm_num
  have hnum2 : 2 ^ 48 * (2 ^ 53 + 1) ^ 21 ≤ (2 ^ 48 + 1) * (2 ^ 53) ^ 21 := by norm_num
  have hpos : 0 < (2 ^ 53) ^ 21 := by positivity
  clear hA hB hC
  generalize (2 ^ 53) ^ 21 = A at *
  generalize (2 ^ 53 - 1) ^ 21 = B at *
  generalize (2 ^ 53 + 1) ^ 21 = C at *
  generalize k * d = x at *
  constructor
  · apply Nat.le_of_mul_le_mul_left _ hpos
    calc A * ((2 ^ 48 - 1) * x) = (2 ^ 48 - 1) * A * x := by ring
      _ ≤ 2 ^ 48 * B * x := Nat.mul_le_mul_right _ hnum1
      _ = 2 ^ 48 * (B * x) := by ring
      _ ≤ 2 ^ 48 * (A * a) := Nat.mul_le_mul_left _ hlow
      _ = A * (2 ^ 48 * a) := by ring
  · apply Nat.le_of_mul_le_mul_left _ hpos
    calc A * (2 ^ 48 * a) = 2 ^ 48 * (A * a) := by ring
      _ ≤ 2 ^ 48 * (C * x) := Nat.mul_le_mul_left _ hupp
      _ = 2 ^ 48 * C * x := by ring
      _ ≤ (2 ^ 48 + 1) * A * x := Nat.mul_le_mul_right _ hnum2
      _ = A * ((2 ^ 48 + 1) * x) := by ring

theorem running_iff (t k : Nat) :
    (animateCounter t k).running = true ↔
      k = 0 ∨ accumulate (counterIncrement t) k < counterTarget t := by
  constructor
  · intro h
    by_cases hk : k = 0
    · exact Or.inl hk
    · exact Or.inr ((running_state t k h).2.2 (by omega)).1
  · intro h
    induction k with
    | zero => rfl
    | succ k ih =>
      rcases h with h | h
      · omega
      · have hk : (animateCounter t k).running = true := by
          apply ih
          by_cases hk0 : k = 0
          · exact Or.inl hk0
          · exact Or.inr (Nat.lt_of_le_of_lt (accumulate_le_succ _ k) h)
        by_contra hstop
        have hstop' : (animateCounter t (k + 1)).running = false := by simpa using hstop
        obtain ⟨_, _, h3, h4, h5, h6⟩ := stopped_state t (k + 1) hstop'
        have hle : accumulate (counterIncrement t) (animateCounter t (k + 1)).ticks ≤
            accumulate (counterIncrement t) (k + 1) := accumulate_mono _ h4
        omega

theorem stopped_succ (t k : Nat) (h : (animateCounter t k).running = false) :
    animateCounter t (k + 1) = animateCounter t k := by
  rw [animateCounter_succ]
  simp [h]

/-- The timer is cleared by the twenty-first tick. -/
theorem stopped_21 (t : Nat) (h2 : t < 2 ^ 53) : (animateCounter t 21).running = false := by
  by_cases h0 : t = 0
  · by_contra hr
    have hr' : (animateCounter t 21).running = true := by simpa using hr
    have h1 := running_of_le t (show 1 ≤ 21 by norm_num) hr'
    have := ((running_state t 1 h1).2.2 (by norm_num)).1
    rw [counterTarget_eq t h2, h0] at this
    omega
  · exact stopped_of_reached t 20 (accumulate_reaches t (by omega) h2)

theorem running_le_20 (t k : Nat) (h2 : t < 2 ^ 53) (h : (animateCounter t k).running = true) :
    k ≤ 20 := by
  by_contra hk
  have := running_of_le t (show 21 ≤ k by omega) h
  rw [stopped_21 t h2] at this
  exact Bool.false_ne_true this

theorem ticks_le_21 (t k : Nat) (h2 : t < 2 ^ 53) : (animateCounter t k).ticks ≤ 21 := by
  by_cases hr : (animateCounter t k).running = true
  · have := running_le_20 t k h2 hr
    rw [(running_state t k hr).2.1]
    omega
  · have hr' : (animateCounter t k).running = false := by simpa using hr
    obtain ⟨_, _, h3, _, _, h6⟩ := stopped_state t k hr'
    have := running_le_20 t _ h2 h6
    omega

theorem floor_mono {a b : Nat} (h : a ≤ b) : Double.floor a ≤ Double.floor b :=
  Nat.div_le_div_right h

/-- The displayed values never decrease. -/
theorem shown_mono (t k : Nat) (hk : 1 ≤ k) :
    (animateCounter t k).shown ≤ (animateCounter t (k + 1)).shown := by
  by_cases hr : (animateCounter t k).running = true
  · obtain ⟨_, _, h3⟩ := running_state t k hr
    obtain ⟨h4, h5⟩ := h3 hk
    by_cases hr2 : (animateCounter t (k + 1)).running = true
    · obtain ⟨_, _, h6⟩ := running_state t (k + 1) hr2
      rw [h5, (h6 (by omega)).2]
      exact floor_mono (accumulate_le_succ _ k)
    · have hr2' : (animateCounter t (k + 1)).running = false := by simpa using hr2
      rw [h5, (stopped_state t (k + 1) hr2').2.1]
      exact floor_mono (Nat.le_of_lt h4)
  · have hr' : (animateCounter t k).running = false := by simpa using hr
    rw [stopped_succ t k hr']

theorem shown_stopped (t k : Nat) (h2 : t < 2 ^ 53)
    (h : (animateCounter t k).running = false) : (animateCounter t k).shown = t := by
  rw [(stopped_state t k h).2.1, counterTarget_eq t h2, floor_mul_scale]

theorem shown_le (t k : Nat) (h2 : t < 2 ^ 53) (hk : 1 ≤ k) :
    (animateCounter t k).shown ≤ t := by
  by_cases hr : (animateCounter t k).running = true
  · obtain ⟨h4, h5⟩ := (running_state t k hr).2.2 hk
    rw [h5]
    have := floor_mono (Nat.le_of_lt h4)
    rwa [counterTarget_eq t h2, floor_mul_scale] at this
  · have hr' : (animateCounter t k).running = false := by simpa using hr
    rw [shown_stopped t k h2 hr']

/-- For targets below `2^40` the value displayed on tick `k` is the floor of
`min (k * t / 20) t` or one less. -/
theorem shown_near_exact (t k : Nat) (h2 : t < 2 ^ 40) (hk : 1 ≤ k) :
    (animateCounter t k).shown ≤ min (k * t / 20) t ∧
    min (k * t / 20) t ≤ (animateCounter t k).shown + 1 := by
  have h53 : t < 2 ^ 53 := by
    have : (2 : Nat) ^ 40 ≤ 2 ^ 53 := by norm_num
    omega
  have hg := counterTarget_eq t h53
  by_cases hr : (animateCounter t k).running = true
  · have hk20 := running_le_20 t k h53 hr
    obtain ⟨h4, h5⟩ := (running_state t k hr).2.2 hk
    obtain ⟨hb1, hb2⟩ := accumulate_bounds t k hk20
    rw [h5]
    unfold Double.floor
    rw [hg] at h4 hb1 hb2
    have hd1 : 20 * (k * (t * scale / 20)) ≤ k * t * scale := by
      have : 20 * (t * scale / 20) ≤ t * scale := Nat.mul_div_le _ _
      calc 20 * (k * (t * scale / 20)) = k * (20 * (t * scale / 20)) := by ring
        _ ≤ k * (t * scale) := Nat.mul_le_mul_left _ this
        _ = k * t * scale := by ring
    have hd2 : k * t * scale ≤ 20 * (k * (t * scale / 20)) + 19 * k := by
      have : t * scale ≤ 20 * (t * scale / 20) + 19 := by omega
      calc k * t * scale = k * (t * scale) := by ring
        _ ≤ k * (20 * (t * scale / 20) + 19) := Nat.mul_le_mul_left _ this
        _ = 20 * (k * (t * scale / 20)) + 19 * k := by ring
    have hkt : k * t ≤ 20 * t := Nat.mul_le_mul_right _ hk20
    generalize k * (t * scale / 20) = x at *
    generalize accumulate (counterIncrement t) k = a at *
    generalize k * t = y at *
    unfold scale at *
    norm_num at *
    omega
  · have hr' : (animateCounter t k).running = false := by simpa using hr
    rw [shown_stopped t k h53 hr']
    refine ⟨?_, by omega⟩
    by_cases h0 : t = 0
    · rw [h0]; simp
    · obtain ⟨_, _, h3, h4, h5, h6⟩ := stopped_state t k hr'
      generalize (animateCounter t k).ticks = j at *
      have hj21 := running_le_20 t _ h53 h6
      have hj20 : 20 ≤ j := by
        by_contra hj
        obtain ⟨_, hb2⟩ := accumulate_bounds t j (by omega)
        rw [hg] at h5 hb2
        have hjd : j * (t * scale / 20) ≤ 19 * (t * scale / 20) :=
          Nat.mul_le_mul_right _ (by omega)
        have hts : 1 * scale ≤ t * scale := Nat.mul_le_mul_right _ (by omega)
        generalize j * (t * scale / 20) = x at *
        generalize accumulate (counterIncrement t) j = a at *
        generalize t * scale = g at *
        unfold scale at *
        norm_num at *
        omega
      have hkt : 20 * t ≤ k * t := Nat.mul_le_mul_right _ (by omega)
      have : t ≤ k * t / 20 := by
        rw [Nat.le_div_iff_mul_le (by norm_num)]
        omega
      omega

theorem counterIncrement_twenty (m : Nat) (h : 20 * m < 2 ^ 53) :
    counterIncrement (20 * m) = m * scale := by
  rw [counterIncrement_eq, counterTarget_eq _ h]
  have hdiv : 20 * m * scale / 20 = m * scale := by
    rw [Nat.mul_assoc]
    exact Nat.mul_div_cancel_left _ (by norm_num)
  rw [hdiv]
  exact round53_exact _ _ (representable_mul_scale m (by omega))

theorem accumulate_twenty (m k : Nat) (h : 20 * m < 2 ^ 53) (hk : k ≤ 20) :
    accumulate (m * scale) k = k * m * scale := by
  induction k with
  | zero => simp [accumulate]
  | succ k ih =>
    have hkm : (k + 1) * m ≤ 20 * m := Nat.mul_le_mul_right _ hk
    have hrep : Representable ((k + 1) * m * scale) :=
      representable_mul_scale _ (by omega)
    show round53 (accumulate (m * scale) k + m * scale) false = (k + 1) * m * scale
    rw [ih (by omega)]
    have : k * m * scale + m * scale = (k + 1) * m * scale := by ring
    rw [this]
    exact round53_exact _ _ hrep

/-- A target that is a multiple of 20 is reached in twenty exact steps. -/
theorem animateCounter_twenty (m k : Nat) (h : 20 * m < 2 ^ 53) :
    (animateCounter (20 * m) k).ticks ≤ 20 ∧
    (1 ≤ k → (animateCounter (20 * m) k).shown = min (k * (20 * m) / 20) (20 * m)) := by
  have hg := counterTarget_eq (20 * m) h
  have hinc := counterIncrement_twenty m h
  have hstop20 : (animateCounter (20 * m) 20).running = false := by
    apply stopped_of_reached
    rw [hg, hinc, accumulate_twenty m 20 h (Nat.le_refl _)]
  have hrun : ∀ j, (animateCounter (20 * m) j).running = true → j ≤ 19 := by
    intro j hj
    by_contra hlt
    have := running_of_le (20 * m) (show 20 ≤ j by omega) hj
    rw [hstop20] at this
    exact Bool.false_ne_true this
  constructor
  · by_cases hr : (animateCounter (20 * m) k).running = true
    · rw [(running_state _ k hr).2.1]
      have := hrun k hr
      omega
    · have hr' : (animateCounter (20 * m) k).running = false := by simpa using hr
      obtain ⟨_, _, _, _, _, h6⟩ := stopped_state _ k hr'
      have := hrun _ h6
      omega
  · intro hk
    have hmin : k * (20 * m) / 20 = k * m := by
      rw [show k * (20 * m) = 20 * (k * m) by ring]
      exact Nat.mul_div_cancel_left _ (by norm_num)
    rw [hmin]
    by_cases hr : (animateCounter (20 * m) k).running = true
    · have hk19 := hrun k hr
      obtain ⟨h4, h5⟩ := (running_state _ k hr).2.2 hk
      rw [h5, hinc, accumulate_twenty m k h (by omega), floor_mul_scale]
      have : k * m ≤ 20 * m := Nat.mul_le_mul_right _ (by omega)
      omega
    · have hr' : (animateCounter (20 * m) k).running = false := by simpa using hr
      rw [shown_stopped _ k h hr']
      by_cases hm : m = 0
      · rw [hm]; simp
      · have hk20 : 20 ≤ k := by
          by_contra hlt
          have hacc : accumulate (counterIncrement (20 * m)) k < counterTarget (20 * m) := by
            rw [hg, hinc, accumulate_twenty m k h (by omega)]
            have hpos : 0 < scale := by unfold scale; positivity
            apply Nat.mul_lt_mul_of_pos_right _ hpos
            exact Nat.mul_lt_mul_of_pos_right (by omega) (Nat.pos_of_ne_zero hm)
          have := (running_iff (20 * m) k).2 (Or.inr hacc)
          rw [hr'] at this
          exact Bool.false_ne_true this
        have : 20 * m ≤ k * m := Nat.mul_le_mul_right _ hk20
        omega

/-- C7, as the code has it.  For every counter whose text is a non-negative
integer `t` below `2^53`, `animateCounter` clears its timer after at most 21
ticks; the displayed values never decrease and never exceed `t`, and the
value displayed once the timer is cleared is exactly `t`.  For `t` below
`2^40` the value displayed on tick `k` is the floor of `min(k*t/20, t)` or
one less.  When `t` is a multiple of 20 the timer is cleared after at most 20
ticks and tick `k` displays exactly `min(k*t/20, t)`. -/
theorem animateCounter_reaches_target (t : Nat) (ht : t < 2 ^ 53) :
    (animateCounter t 21).running = false ∧
    (∀ k, (animateCounter t k).ticks ≤ 21) ∧
    (∀ k, 1 ≤ k → (animateCounter t k).shown ≤ (animateCounter t (k + 1)).shown) ∧
    (∀ k, 1 ≤ k → (animateCounter t k).shown ≤ t) ∧
    (∀ k, (animateCounter t k).running = false → (animateCounter t k).shown = t) ∧
    (t < 2 ^ 40 → ∀ k, 1 ≤ k →
      (animateCounter t k).shown ≤ min (k * t / 20) t ∧
      min (k * t / 20) t ≤ (animateCounter t k).shown + 1) ∧
    (20 ∣ t → ∀ k, (animateCounter t k).ticks ≤ 20 ∧
      (1 ≤ k → (animateCounter t k).shown = min (k * t / 20) t)) := by
  refine ⟨stopped_21 t ht, fun k => ticks_le_21 t k ht, fun k hk => shown_mono t k hk,
    fun k hk => shown_le t k ht hk, fun k hk => shown_stopped t k ht hk,
    fun h40 k hk => shown_near_exact t k h40 hk, ?_⟩
  rintro ⟨m, rfl⟩ k
  exact animateCounter_twenty m k ht

theorem animateCounter_reaches_target_witness :
    100 < 2 ^ 53 ∧ (animateCounter 100 21).running = false ∧
    (∀ k, (animateCounter 100 k).running = false → (animateCounter 100 k).shown = 100) ∧
    (animateCounter 100 20).ticks ≤ 20 ∧
    (List.range 20).map (fun k => (animateCounter 100 (k + 1)).shown) =
      [5, 10, 15, 20, 25, 30, 35, 40, 45, 50, 55, 60, 65, 70, 75, 80, 85, 90, 95, 100] :=
  ⟨by norm_num, (animateCounter_reaches_target 100 (by norm_num)).1,
    (animateCounter_reaches_target 100 (by norm_num)).2.2.2.2.1,
    ((animateCounter_reaches_target 100 (by norm_num)).2.2.2.2.2.2 (by decide) 20).1,
    by decide⟩

set_option maxRecDepth 100000 in
/-- C7 fails as stated.  For the target 3 the timer is still set after 20
ticks, tick 20 displays 2 where `floor(min(20*3/20, 3))` is 3, and the
callback runs a twenty-first time.  For the target `2^53 + 1` the value
displayed at the end is `2^53`. -/
theorem animateCounter_target_three :
    ((animateCounter 3 20).running = true ∧ (animateCounter 3 20).shown = 2 ∧
      min (20 * 3 / 20) 3 = 3 ∧ (animateCounter 3 21).ticks = 21 ∧
      (animateCounter 3 21).shown = 3) ∧
    ((animateCounter (2 ^ 53 + 1) 21).running = false ∧
      (animateCounter (2 ^ 53 + 1) 21).shown = 2 ^ 53) := by
  decide

end ReviewPilot
